import Mathlib

/-!
# Verification of the hyper-tree-grid geometric locator specification

The repository ships only the C++ test driver
(`src/Common/DataModel/Testing/Cxx/TestHyperTreeGridGeometricLocator.cxx`)
for the locator; the locator implementation itself is not part of the
source tree.  Following the specification (`spec.md`, sections 3 and 4),
this file builds an executable shallow embedding of the locator over
exact rational arithmetic and proves the spec's testable properties
against it.
-/

namespace HTGL

/-- A 3-component rational point / vector. -/
abbrev V3 := Fin 3 → ℚ

/-- The axes that take part in the queries for a given dimension.
Modelled from the spec: components beyond `dim` are ignored
(spec section 4.1). -/
def activeAxes (dim : Nat) : List (Fin 3) :=
  (List.finRange 3).filter (fun a => a.val < dim)

/-- Modelled from the spec: one refinement tree of the hyper-tree grid.
Each internal node carries the list of its `branch^dim` children
(spec section 3, "Grid"). -/
inductive HTree where
  | leaf : HTree
  | node (children : List HTree) : HTree

mutual

/-- Number of cells (internal nodes and leaves) of a tree; global ids are
assigned by depth-first preorder, so a subtree occupies a contiguous id
range of this length. -/
def HTree.size : HTree → Nat
  | .leaf => 1
  | .node cs => 1 + sizeList cs

/-- Sum of the sizes of a list of trees. -/
def sizeList : List HTree → Nat
  | [] => 0
  | t :: ts => HTree.size t + sizeList ts

end

mutual

/-- Depth of a tree: the spec stores a per-tree maximum depth which bounds
every descent (spec section 3, "Invariants"). -/
def HTree.depth : HTree → Nat
  | .leaf => 0
  | .node cs => 1 + depthList cs

/-- Maximum depth over a list of trees. -/
def depthList : List HTree → Nat
  | [] => 0
  | t :: ts => max (HTree.depth t) (depthList ts)

end

mutual

/-- Well-formedness of a tree: every internal node has exactly
`branch ^ dim` children (spec section 3: a non-leaf cell has
`branch^dim` children). -/
def HTree.wfB (b dim : Nat) : HTree → Bool
  | .leaf => true
  | .node cs => (cs.length == b ^ dim) && wfListB b dim cs

/-- Well-formedness of a list of trees. -/
def wfListB (b dim : Nat) : List HTree → Bool
  | [] => true
  | t :: ts => t.wfB b dim && wfListB b dim ts

end

/-- Modelled from the spec: the hyper-tree grid as consumed by the locator
(spec section 3) — dimension, per-axis branching factor, the three sorted
coordinate arrays, one refinement tree per root cell in lexicographic
order, and the mask, a total boolean function on global ids. -/
structure HTG where
  dim : Nat
  branch : Nat
  coords : Fin 3 → List ℚ
  trees : List HTree
  mask : Nat → Bool

/-- Number of root cells along one axis; inactive axes contract to a
single slab (spec section 2, item 1). -/
def nAxis (g : HTG) (a : Fin 3) : Nat :=
  if a.val < g.dim then (g.coords a).length - 1 else 1

/-- Total number of root cells. -/
def numRoots (g : HTG) : Nat := nAxis g 0 * (nAxis g 1 * nAxis g 2)

/-- Executable strict-ascending check on a coordinate array. -/
def sortedB : List ℚ → Bool
  | [] => true
  | [_] => true
  | x :: y :: rest => (x < y : Bool) && sortedB (y :: rest)

/-- Well-formedness of the grid data model (spec section 3): dimension in
{1,2,3}, branching factor at least 2, active coordinate arrays strictly
increasing with at least two entries, and one well-formed tree per root. -/
def HTG.wfB (g : HTG) : Bool :=
  (1 ≤ g.dim && g.dim ≤ 3) && (2 ≤ g.branch) &&
  (activeAxes g.dim).all
    (fun a => (2 ≤ (g.coords a).length : Bool) && sortedB (g.coords a)) &&
  (g.trees.length == numRoots g) && wfListB g.branch g.dim g.trees

/-- First entry of an axis coordinate array. -/
def firstC (g : HTG) (a : Fin 3) : ℚ := (g.coords a).getD 0 0

/-- Last entry of an axis coordinate array. -/
def lastC (g : HTG) (a : Fin 3) : ℚ := (g.coords a).getD ((g.coords a).length - 1) 0

/-- Modelled from the spec: the half-open domain test of the root locator
(spec section 4.1, edge policy): along every active axis the grid covers
the half-open interval from the first coordinate (included) up to the
last coordinate (excluded). -/
def inDomainB (g : HTG) (p : V3) : Bool :=
  (activeAxes g.dim).all (fun a => (firstC g a ≤ p a : Bool) && (p a < lastC g a : Bool))

/-- Modelled from the spec: the interval lookup of the root locator
(spec section 4.1): for a sorted coordinate array it returns the index
`i` with `xs[i] ≤ p < xs[i+1]`.  The spec realises the lookup by binary
search; the embedding uses an equivalent sequential scan, which returns
the same unique index on strictly increasing arrays. -/
def findInterval : List ℚ → ℚ → Nat
  | x :: y :: rest, p => if p < y then 0 else findInterval (y :: rest) p + 1
  | _, _ => 0

/-- Modelled from the spec: the per-axis child index of the descent
engine (spec section 4.2, step 1): `floor((p - origin) * branch / size)`
clamped to `[0, branch-1]`. -/
def childDigit (b : Nat) (o s pa : ℚ) : Nat :=
  min (b - 1) (max 0 ⌊(pa - o) * (b : ℚ) / s⌋).toNat

/-- The per-axis child indices of a point; absent axes collapse to 0
(spec section 4.2, step 2). -/
def childDigits (dim b : Nat) (o s p : V3) : Fin 3 → Nat := fun a =>
  if a.val < dim then childDigit b (o a) (s a) (p a) else 0

/-- Modelled from the spec: linearisation of per-axis child indices,
`c = c_z * branch^2 + c_y * branch + c_x` with absent axes contributing
zero (spec section 4.2, step 2). -/
def linearize (b : Nat) (d : Fin 3 → Nat) : Nat := d 0 + b * (d 1 + b * d 2)

/-- Per-axis digit of a linearised child index. -/
def digitOf (b c : Nat) : Fin 3 → Nat := fun a => c / b ^ a.val % b

/-- Origin of the child cell `c` of a cell with geometry `(o, s)`:
each active axis is subdivided into `b` equal parts
(spec section 3, "Cell geometry"). -/
def childBoxO (dim b : Nat) (o s : V3) (c : Nat) : V3 := fun a =>
  if a.val < dim then o a + (digitOf b c a : ℚ) * (s a / (b : ℚ)) else o a

/-- Size of a child cell: `size / branch` on every active axis. -/
def childBoxS (dim b : Nat) (s : V3) : V3 := fun a =>
  if a.val < dim then s a / (b : ℚ) else s a

/-- Global id of child `c` under depth-first preorder numbering: the
parent's id plus one plus the sizes of the earlier siblings' subtrees. -/
def childBase (base : Nat) (cs : List HTree) (c : Nat) : Nat :=
  base + 1 + sizeList (cs.take c)

/-- Global ids of all the children of a node. -/
def childrenBases (base : Nat) (cs : List HTree) : List Nat :=
  (List.range cs.length).map (childBase base cs)

/-- Outcome of a point query (spec sections 4.2 and 7): out-of-domain and
masked-hit are the normal failures, `error` is the reserved internal
failure, and `found` carries the resting cell's global id and geometry
(the state of the cursor after the search). -/
inductive DescOut where
  | error
  | outOfDomain
  | masked
  | found (base : Nat) (o s : V3)
deriving DecidableEq

/-- Modelled from the spec: the descent engine (spec section 4.2).
Starting from a cell containing the point it repeatedly computes the
clamped per-axis child index and descends; a masked leaf yields the
masked sentinel, an unmasked leaf its global id.  If every child of the
current internal cell is masked, the descent rests at that cell and
returns its id (spec section 8, seed case 4, "mask-parent fallback").
The fuel argument realises the spec's bounded depth; it is called with
fuel exceeding the tree depth, so `error` is unreachable. -/
def descend (mask : Nat → Bool) (dim b : Nat) (p : V3) :
    Nat → HTree → V3 → V3 → Nat → DescOut
  | 0, _, _, _, _ => .error
  | _ + 1, .leaf, o, s, base => if mask base then .masked else .found base o s
  | fuel + 1, .node cs, o, s, base =>
    if (childrenBases base cs).all mask then .found base o s
    else
      match cs[linearize b (childDigits dim b o s p)]? with
      | none => .error
      | some t =>
        descend mask dim b p fuel t
          (childBoxO dim b o s (linearize b (childDigits dim b o s p)))
          (childBoxS dim b s)
          (childBase base cs (linearize b (childDigits dim b o s p)))

/-- The purely geometric descent path of a point: the `(global id, tree)`
pairs of the cells visited from the root cell down to the containing
leaf, ignoring the mask. -/
def geomPath (dim b : Nat) (p : V3) : Nat → HTree → V3 → V3 → Nat → List (Nat × HTree)
  | 0, _, _, _, _ => []
  | _ + 1, .leaf, _, _, base => [(base, .leaf)]
  | fuel + 1, .node cs, o, s, base =>
    match cs[linearize b (childDigits dim b o s p)]? with
    | none => [(base, .node cs)]
    | some t =>
      (base, .node cs) ::
        geomPath dim b p fuel t
          (childBoxO dim b o s (linearize b (childDigits dim b o s p)))
          (childBoxS dim b s)
          (childBase base cs (linearize b (childDigits dim b o s p)))

/-- The containing leaf of a point: global id, origin and size of the
leaf the purely geometric descent ends in. -/
def containingLeaf (dim b : Nat) (p : V3) : Nat → HTree → V3 → V3 → Nat → Option (Nat × V3 × V3)
  | 0, _, _, _, _ => none
  | _ + 1, .leaf, o, s, base => some (base, o, s)
  | fuel + 1, .node cs, o, s, base =>
    match cs[linearize b (childDigits dim b o s p)]? with
    | none => none
    | some t =>
      containingLeaf dim b p fuel t
        (childBoxO dim b o s (linearize b (childDigits dim b o s p)))
        (childBoxS dim b s)
        (childBase base cs (linearize b (childDigits dim b o s p)))

/-- Whether the masked descent for a point runs all the way to a leaf:
no internal cell along the geometric path has all of its children
masked, so the mask-parent fallback never fires. -/
def noFallback (mask : Nat → Bool) (dim b : Nat) (p : V3) :
    Nat → HTree → V3 → V3 → Nat → Bool
  | 0, _, _, _, _ => false
  | _ + 1, .leaf, _, _, _ => true
  | fuel + 1, .node cs, o, s, base =>
    !(childrenBases base cs).all mask &&
      (match cs[linearize b (childDigits dim b o s p)]? with
        | none => false
        | some t =>
          noFallback mask dim b p fuel t
            (childBoxO dim b o s (linearize b (childDigits dim b o s p)))
            (childBoxS dim b s)
            (childBase base cs (linearize b (childDigits dim b o s p))))

/-- Root-cell digits of a linear root index, inverse of `rootLinear`
(spec section 3: the lexicographic root order is a fixed invariant of
the grid). -/
def rootDigits (g : HTG) (r : Nat) : Fin 3 → Nat := fun a =>
  if a.val = 0 then r % nAxis g 0
  else if a.val = 1 then r / nAxis g 0 % nAxis g 1
  else r / (nAxis g 0 * nAxis g 1)

/-- Linear root index of per-axis root-cell indices
(spec section 4.1: the canonical lexicographic mapping). -/
def rootLinear (g : HTG) (i : Fin 3 → Nat) : Nat :=
  i 0 + nAxis g 0 * (i 1 + nAxis g 1 * i 2)

/-- Origin of a root cell with per-axis indices `i`. -/
def rootBoxO (g : HTG) (i : Fin 3 → Nat) : V3 := fun a =>
  if a.val < g.dim then (g.coords a).getD (i a) 0 else firstC g a

/-- Size of a root cell with per-axis indices `i`. -/
def rootBoxS (g : HTG) (i : Fin 3 → Nat) : V3 := fun a =>
  if a.val < g.dim then (g.coords a).getD (i a + 1) 0 - (g.coords a).getD (i a) 0 else 1

/-- Modelled from the spec: the root locator (spec section 4.1) — the
per-axis interval index of a point, 0 on inactive axes. -/
def rootIndexOf (g : HTG) (p : V3) : Fin 3 → Nat := fun a =>
  if a.val < g.dim then findInterval (g.coords a) (p a) else 0

/-- First global id of the tree of root cell `r`: the trees are numbered
depth-first in root order. -/
def treeBase (g : HTG) (r : Nat) : Nat := sizeList (g.trees.take r)

/-- Modelled from the spec: the full point query pipeline
(spec section 4.3) — root locate, then descend; out-of-domain points are
rejected up front (spec section 4.1, edge policy). -/
def searchResult (g : HTG) (p : V3) : DescOut :=
  if inDomainB g p then
    match g.trees[rootLinear g (rootIndexOf g p)]? with
    | none => .error
    | some t =>
      descend g.mask g.dim g.branch p (t.depth + 1) t
        (rootBoxO g (rootIndexOf g p)) (rootBoxS g (rootIndexOf g p))
        (treeBase g (rootLinear g (rootIndexOf g p)))
  else .outOfDomain

/-- Collapse of a query outcome to the legacy id convention
(spec section 6, "Sentinels"): the found id, `-2` for the reserved
internal failure, `-1` otherwise. -/
def toId : DescOut → Int
  | .found i _ _ => i
  | .error => -2
  | _ => -1

/-- Modelled from the spec: `search(p) → id` (spec section 4.3). -/
def search (g : HTG) (p : V3) : Int := toId (searchResult g p)

/-- The geometric descent path of a point from its containing root. -/
def pathOfRoot (g : HTG) (p : V3) : List (Nat × HTree) :=
  if inDomainB g p then
    match g.trees[rootLinear g (rootIndexOf g p)]? with
    | none => []
    | some t =>
      geomPath g.dim g.branch p (t.depth + 1) t
        (rootBoxO g (rootIndexOf g p)) (rootBoxS g (rootIndexOf g p))
        (treeBase g (rootLinear g (rootIndexOf g p)))
  else []

/-- The containing leaf of a point, from its containing root. -/
def leafOfRoot (g : HTG) (p : V3) : Option (Nat × V3 × V3) :=
  if inDomainB g p then
    match g.trees[rootLinear g (rootIndexOf g p)]? with
    | none => none
    | some t =>
      containingLeaf g.dim g.branch p (t.depth + 1) t
        (rootBoxO g (rootIndexOf g p)) (rootBoxS g (rootIndexOf g p))
        (treeBase g (rootLinear g (rootIndexOf g p)))
  else none

/-- Whether the descent for a point reaches a leaf (the mask-parent
fallback never fires along its path). -/
def noFallbackAt (g : HTG) (p : V3) : Bool :=
  if inDomainB g p then
    match g.trees[rootLinear g (rootIndexOf g p)]? with
    | none => false
    | some t =>
      noFallback g.mask g.dim g.branch p (t.depth + 1) t
        (rootBoxO g (rootIndexOf g p)) (rootBoxS g (rootIndexOf g p))
        (treeBase g (rootLinear g (rootIndexOf g p)))
  else false

/-- The same grid with a different mask; queries never mutate anything
else (spec section 3, "Lifecycle"). -/
def HTG.setMask (g : HTG) (m : Nat → Bool) : HTG := { g with mask := m }

/-- An extended coordinate as it arrives from the caller: a finite real
(here rational) value, an infinity, or NaN (spec section 4.1: points
with NaN or infinities in any active component are out-of-domain). -/
inductive XCoord where
  | nan
  | ninf
  | pinf
  | fin (q : ℚ)
deriving DecidableEq

/-- IEEE-style comparison: any comparison with NaN is false. -/
def XCoord.le : XCoord → XCoord → Bool
  | .fin a, .fin b => a ≤ b
  | .ninf, .ninf => true
  | .ninf, .fin _ => true
  | .ninf, .pinf => true
  | .fin _, .pinf => true
  | .pinf, .pinf => true
  | _, _ => false

/-- IEEE-style strict comparison: any comparison with NaN is false. -/
def XCoord.lt : XCoord → XCoord → Bool
  | .fin a, .fin b => a < b
  | .ninf, .fin _ => true
  | .ninf, .pinf => true
  | .fin _, .pinf => true
  | _, _ => false

/-- Whether an extended coordinate is a finite value. -/
def XCoord.isFin : XCoord → Bool
  | .fin _ => true
  | _ => false

/-- The rational value of a finite extended coordinate (0 otherwise;
only ever used after the domain check has established finiteness). -/
def XCoord.val : XCoord → ℚ
  | .fin q => q
  | _ => 0

/-- Modelled from the spec: the domain test on raw caller input
(spec section 4.1, edge policy): every active component must lie in the
half-open axis range; a NaN or infinite component fails the comparison
and the point is out-of-domain. -/
def inDomainXB (g : HTG) (p : Fin 3 → XCoord) : Bool :=
  (activeAxes g.dim).all
    (fun a => (XCoord.fin (firstC g a)).le (p a) && (p a).lt (XCoord.fin (lastC g a)))

/-- Membership of a raw extended-coordinate point in the grid's
half-open domain (spec sections 3 and 4.1): every active component is a
finite value lying in the half-open range from the first coordinate
(included) up to the last coordinate (excluded). -/
def inDomainX (g : HTG) (p : Fin 3 → XCoord) : Prop :=
  ∀ a : Fin 3, a.val < g.dim →
    (p a).isFin = true ∧ firstC g a ≤ (p a).val ∧ (p a).val < lastC g a

/-- Modelled from the spec: `search` on raw caller input — the domain
check runs on the extended coordinates, then the finite point is
searched (spec sections 4.1 and 4.3). -/
def searchX (g : HTG) (p : Fin 3 → XCoord) : DescOut :=
  if inDomainXB g p then searchResult g (fun a => (p a).val) else .outOfDomain

/-- Modelled from the spec: the parametric coordinates of a point inside
a cell, `xi_a = (p_a - origin_a) / size_a` (spec section 4.4, step 2),
indexed by axis number, 0 beyond the active axes. -/
def xiOf (dim : Nat) (o s p : V3) : Nat → ℚ := fun a =>
  if h : a < 3 then
    (if a < dim then (p ⟨a, h⟩ - o ⟨a, h⟩) / s ⟨a, h⟩ else 0)
  else 0

/-- Modelled from the spec: the `2^dim` multilinear basis weights
`w_k = prod_a (xi_a if bit_a(k) else (1 - xi_a))` (spec section 4.4,
step 3), built by the usual recursion on the dimension: the second half
of the list carries the factor `xi_d` (bit `d` set), the first half the
factor `1 - xi_d`. -/
def weightsRec : Nat → (Nat → ℚ) → List ℚ
  | 0, _ => [1]
  | d + 1, xi => (weightsRec d xi).map (· * (1 - xi d)) ++ (weightsRec d xi).map (· * xi d)

/-- Modelled from the spec: `find_cell` (spec section 4.4) — a point
search followed by the interpolation weights of the point inside the
found cell. -/
def findCell (g : HTG) (p : V3) : Option (Nat × List ℚ) :=
  match searchResult g p with
  | .found i o s => some (i, weightsRec g.dim (xiOf g.dim o s p))
  | _ => none

/-- The point of the segment from `a` to `b` at parameter `t`
(spec section 4.5, parametric convention). -/
def segAt (aPt bPt : V3) (t : ℚ) : V3 := fun i => aPt i + t * (bPt i - aPt i)

/-- Modelled from the spec: the slab clipping step of the line traversal
(spec section 4.5, step 2): per active axis the parameter interval is
intersected with the slab crossing interval; a zero direction component
keeps the interval when the point is inside the slab and rejects the box
otherwise.  The accumulator starts at the segment's own range `[0, 1]`. -/
def slabGo (aPt bPt o s : V3) : List (Fin 3) → ℚ × ℚ → Option (ℚ × ℚ)
  | [], acc => some acc
  | ax :: rest, (lo, hi) =>
    if bPt ax - aPt ax = 0 then
      if o ax ≤ aPt ax ∧ aPt ax ≤ o ax + s ax then
        slabGo aPt bPt o s rest (lo, hi)
      else none
    else
      slabGo aPt bPt o s rest
        (max lo (min ((o ax - aPt ax) / (bPt ax - aPt ax))
                     ((o ax + s ax - aPt ax) / (bPt ax - aPt ax))),
         min hi (max ((o ax - aPt ax) / (bPt ax - aPt ax))
                     ((o ax + s ax - aPt ax) / (bPt ax - aPt ax))))

/-- Entry and exit parameters of the segment against a box, clipped to
`[0, 1]`, or `none` when a degenerate axis lies outside its slab. -/
def slab (dim : Nat) (aPt bPt o s : V3) : Option (ℚ × ℚ) :=
  slabGo aPt bPt o s (activeAxes dim) (0, 1)

/-- Modelled from the spec: the recursive walk of the line traversal
engine over one tree (spec section 4.5, step 2): a box whose exit
parameter falls short of its entry parameter by more than the tolerance
is rejected; an unmasked leaf emits its entry parameter and its global
id; a masked leaf is transparent and emits nothing; an internal cell
recurses into its children.  The children are enumerated in the fixed
child order; the query facade orders the collected hits by the entry
parameter afterwards, which realises the spec's parametric output
order. -/
def cellEmit (mask : Nat → Bool) (dim b : Nat) (aPt bPt : V3) (tol : ℚ) :
    Nat → HTree → V3 → V3 → Nat → List (ℚ × Nat)
  | 0, _, _, _, _ => []
  | fuel + 1, tree, o, s, base =>
    match slab dim aPt bPt o s with
    | none => []
    | some (lo, hi) =>
      if hi < lo - tol then []
      else
        match tree with
        | .leaf => if mask base then [] else [(lo, base)]
        | .node cs =>
          (cs.enum.map (fun ct =>
            cellEmit mask dim b aPt bPt tol fuel ct.2
              (childBoxO dim b o s ct.1) (childBoxS dim b s)
              (childBase base cs ct.1))).join

/-- All hits of a segment against the grid, in traversal order: every
root cell is intersected with the segment (spec section 4.5, step 1
enumerates exactly the roots the segment enters; the others are
rejected by their slab test). -/
def intersectAllRaw (g : HTG) (aPt bPt : V3) (tol : ℚ) : List (ℚ × Nat) :=
  ((List.range (numRoots g)).map (fun r =>
    match g.trees[r]? with
    | none => []
    | some t =>
      cellEmit g.mask g.dim g.branch aPt bPt tol (t.depth + 1) t
        (rootBoxO g (rootDigits g r)) (rootBoxS g (rootDigits g r))
        (treeBase g r))).join

/-- Hits ordered by their entry parameter along the segment. -/
def tOrder : ℚ × Nat → ℚ × Nat → Prop := fun u v => u.1 ≤ v.1

instance : DecidableRel tOrder := fun u v => inferInstanceAs (Decidable (u.1 ≤ v.1))

instance : IsTotal (ℚ × Nat) tOrder := ⟨fun u v => le_total u.1 v.1⟩

instance : IsTrans (ℚ × Nat) tOrder := ⟨fun _ _ _ h h' => le_trans h h'⟩

/-- Modelled from the spec: `intersect_all(a, b)` (spec section 4.5) —
every intersected unmasked leaf with its entry parameter, in
non-decreasing parametric order. -/
def intersectAll (g : HTG) (aPt bPt : V3) (tol : ℚ) : List (ℚ × Nat) :=
  (intersectAllRaw g aPt bPt tol).insertionSort tOrder

/-- Modelled from the spec: `intersect_first(a, b)` (spec section 4.5) —
the first leaf struck by the segment: the hit of minimal entry
parameter, or a miss. -/
def intersectFirst (g : HTG) (aPt bPt : V3) (tol : ℚ) : Option (ℚ × Nat) :=
  (intersectAll g aPt bPt tol).head?

/-- The intersection points returned by `intersect_all`: each hit's entry
parameter evaluated on the segment (spec section 4.5, step 2 emits
`a + t_enter * (b - a)`). -/
def intersectPts (g : HTG) (aPt bPt : V3) (tol : ℚ) : List V3 :=
  (intersectAll g aPt bPt tol).map (fun u => segAt aPt bPt u.1)

/-- The cell ids returned by `intersect_all`. -/
def intersectIds (g : HTG) (aPt bPt : V3) (tol : ℚ) : List Nat :=
  (intersectAll g aPt bPt tol).map Prod.snd

/-- Euclidean distance of two rational 3-points, in the reals. -/
noncomputable def dist3 (x y : V3) : ℝ :=
  Real.sqrt (∑ i : Fin 3, ((x i : ℝ) - (y i : ℝ)) ^ 2)

/-- The half-open box membership of the spec (spec section 3, "Cell
geometry"): on every active axis, `origin ≤ p < origin + size`. -/
def inBoxHO (dim : Nat) (o s p : V3) : Prop :=
  ∀ a : Fin 3, a.val < dim → o a ≤ p a ∧ p a < o a + s a

/-- Closed box membership: on every active axis,
`origin ≤ p ≤ origin + size`. -/
def inBoxC (dim : Nat) (o s p : V3) : Prop :=
  ∀ a : Fin 3, a.val < dim → o a ≤ p a ∧ p a ≤ o a + s a

/-- Open (strict interior) box membership: on every active axis,
`origin < p < origin + size`. -/
def inBoxO (dim : Nat) (o s p : V3) : Prop :=
  ∀ a : Fin 3, a.val < dim → o a < p a ∧ p a < o a + s a

/-- Positivity of the active components of a size vector. -/
def posSize (dim : Nat) (s : V3) : Prop := ∀ a : Fin 3, a.val < dim → 0 < s a

/-- The lower corner of the outer grid (first entry of every coordinate
array). -/
def lowerCorner (g : HTG) : V3 := fun a => firstC g a

/-- The upper corner of the outer grid (last entry of every coordinate
array). -/
def upperCorner (g : HTG) : V3 := fun a => lastC g a

/-- A concrete point, used to exercise the queries on sample grids. -/
def pt3 (x y z : ℚ) : V3 := fun a => if a.val = 0 then x else if a.val = 1 then y else z

/-- A concrete one-dimensional grid over [0, 1) with branching factor 2
and a single root refined once into two leaves (ids: root 0, left leaf
1, right leaf 2), fully unmasked. -/
def gW : HTG :=
  { dim := 1, branch := 2, coords := fun a => if a.val = 0 then [0, 1] else [0],
    trees := [HTree.node [HTree.leaf, HTree.leaf]], mask := fun _ => false }

/-- The same grid with the left leaf (id 1) masked. -/
def gWm : HTG := { gW with mask := fun i => i == 1 }

/-- The origin of the containing leaf of (1/4, 0, 0) in the sample
grid. -/
def oLW : V3 := ((leafOfRoot gW (pt3 (1/4) 0 0)).getD (0, pt3 0 0 0, pt3 0 0 0)).2.1

/-- The size of the containing leaf of (1/4, 0, 0) in the sample
grid. -/
def sLW : V3 := ((leafOfRoot gW (pt3 (1/4) 0 0)).getD (0, pt3 0 0 0, pt3 0 0 0)).2.2

/-- Origin payload of a found query outcome. -/
def foundO : DescOut → V3
  | .found _ o _ => o
  | _ => pt3 0 0 0

/-- Size payload of a found query outcome. -/
def foundS : DescOut → V3
  | .found _ _ s => s
  | _ => pt3 0 0 0

/-- Origin of the leaf the unmasked point search finds for the origin of
the sample masked-segment test. -/
def oLW8 : V3 := foundO (searchResult (gWm.setMask (fun _ => false)) (pt3 0 0 0))

/-- Size of that leaf. -/
def sLW8 : V3 := foundS (searchResult (gWm.setMask (fun _ => false)) (pt3 0 0 0))

theorem mem_activeAxes {dim : Nat} {a : Fin 3} :
    a ∈ activeAxes dim ↔ a.val < dim := by
  simp [activeAxes]

/-- `findInterval` is the half-open interval lookup the spec's root
locator asks for: on a strictly increasing array containing `p` in its
half-open span it returns the unique `i` with `xs[i] ≤ p < xs[i+1]`. -/
theorem findInterval_spec (xs : List ℚ) (p : ℚ)
    (hs : List.Chain' (· < ·) xs) (h2 : 2 ≤ xs.length)
    (hlo : xs.getD 0 0 ≤ p) (hhi : p < xs.getD (xs.length - 1) 0) :
    findInterval xs p + 1 < xs.length ∧
    xs.getD (findInterval xs p) 0 ≤ p ∧ p < xs.getD (findInterval xs p + 1) 0 := by
  induction xs with
  | nil => simp at h2
  | cons x xs ih =>
    cases xs with
    | nil => simp at h2
    | cons y rest =>
      by_cases hy : p < y
      · refine ⟨by simp [findInterval, hy], ?_, ?_⟩
        · simpa [findInterval, hy] using hlo
        · simpa [findInterval, hy] using hy
      · cases rest with
        | nil =>
          exfalso
          exact hy (by simpa using hhi)
        | cons z rest' =>
          have hs' : List.Chain' (· < ·) (y :: z :: rest') := hs.tail
          have h2' : 2 ≤ (y :: z :: rest').length := by simp
          have hlo' : (y :: z :: rest').getD 0 0 ≤ p := by
            simpa using le_of_not_lt hy
          have hhi' : p < (y :: z :: rest').getD ((y :: z :: rest').length - 1) 0 := by
            simpa using hhi
          obtain ⟨ha, hb, hc⟩ := ih hs' h2' hlo' hhi'
          refine ⟨?_, ?_, ?_⟩
          · simpa [findInterval, hy] using Nat.succ_lt_succ ha
          · simpa [findInterval, hy] using hb
          · simpa [findInterval, hy] using hc

theorem inBoxHO_inBoxC {dim : Nat} {o s p : V3} (h : inBoxHO dim o s p) :
    inBoxC dim o s p :=
  fun a ha => ⟨(h a ha).1, le_of_lt (h a ha).2⟩

theorem inBoxHO_posSize {dim : Nat} {o s p : V3} (h : inBoxHO dim o s p) :
    posSize dim s := by
  intro a ha
  have := h a ha
  linarith [this.1, this.2]

/-- The clamped per-axis child digit of a point in the half-open cell:
the digit is in range and the child's half-open slab contains the
point. -/
theorem childDigit_halfOpen {b : Nat} (hb : 2 ≤ b) {o s pa : ℚ}
    (hlo : o ≤ pa) (hhi : pa < o + s) :
    childDigit b o s pa < b ∧
    o + (childDigit b o s pa : ℚ) * (s / (b : ℚ)) ≤ pa ∧
    pa < o + (childDigit b o s pa : ℚ) * (s / (b : ℚ)) + s / (b : ℚ) := by
  have hs : 0 < s := by linarith
  have hbQ : (0 : ℚ) < (b : ℚ) := by positivity
  set r : ℚ := (pa - o) * (b : ℚ) / s with hr
  have hr0 : 0 ≤ r := by
    apply div_nonneg _ (le_of_lt hs)
    have : 0 ≤ pa - o := by linarith
    positivity
  have hrb : r < (b : ℚ) := by
    rw [hr, div_lt_iff hs]
    have h1 : pa - o < s := by linarith
    calc (pa - o) * (b : ℚ) < s * (b : ℚ) := by
          exact mul_lt_mul_of_pos_right h1 hbQ
      _ = (b : ℚ) * s := by ring
  have hfl0 : 0 ≤ ⌊r⌋ := Int.floor_nonneg.mpr hr0
  have hflb : ⌊r⌋ < (b : ℤ) := by
    rw [Int.floor_lt]
    exact_mod_cast hrb
  have hmax : max 0 ⌊r⌋ = ⌊r⌋ := max_eq_right hfl0
  have hd : childDigit b o s pa = ⌊r⌋.toNat := by
    unfold childDigit
    rw [← hr, hmax]
    have : ⌊r⌋.toNat ≤ b - 1 := by omega
    exact min_eq_right this
  have hcastd : ((childDigit b o s pa : ℕ) : ℚ) = (⌊r⌋ : ℚ) := by
    rw [hd]
    exact_mod_cast congrArg (fun z : ℤ => (z : ℚ)) (Int.toNat_of_nonneg hfl0)
  have hdlt : childDigit b o s pa < b := by omega
  refine ⟨hdlt, ?_, ?_⟩
  · have h1 : (⌊r⌋ : ℚ) ≤ r := Int.floor_le r
    have h2 : (⌊r⌋ : ℚ) * (s / (b : ℚ)) ≤ r * (s / (b : ℚ)) := by
      apply mul_le_mul_of_nonneg_right h1
      positivity
    have h3 : r * (s / (b : ℚ)) = pa - o := by
      rw [hr]; field_simp
    rw [hcastd]; linarith
  · have h1 : r < (⌊r⌋ : ℚ) + 1 := Int.lt_floor_add_one r
    have h2 : r * (s / (b : ℚ)) < ((⌊r⌋ : ℚ) + 1) * (s / (b : ℚ)) := by
      apply mul_lt_mul_of_pos_right h1
      positivity
    have h3 : r * (s / (b : ℚ)) = pa - o := by
      rw [hr]; field_simp
    have h4 : ((⌊r⌋ : ℚ) + 1) * (s / (b : ℚ)) =
        (⌊r⌋ : ℚ) * (s / (b : ℚ)) + s / (b : ℚ) := by ring
    rw [hcastd]
    linarith

/-- The clamped per-axis child digit of a point in the closed cell: the
digit is in range and the child's closed slab contains the point (the
clamp absorbs the upper face). -/
theorem childDigit_closed {b : Nat} (hb : 2 ≤ b) {o s pa : ℚ} (hs : 0 < s)
    (hlo : o ≤ pa) (hhi : pa ≤ o + s) :
    childDigit b o s pa < b ∧
    o + (childDigit b o s pa : ℚ) * (s / (b : ℚ)) ≤ pa ∧
    pa ≤ o + (childDigit b o s pa : ℚ) * (s / (b : ℚ)) + s / (b : ℚ) := by
  rcases lt_or_eq_of_le hhi with hlt | heq
  · obtain ⟨h1, h2, h3⟩ := childDigit_halfOpen hb hlo hlt
    exact ⟨h1, h2, le_of_lt h3⟩
  · have hbQ : (0 : ℚ) < (b : ℚ) := by positivity
    have hr : (pa - o) * (b : ℚ) / s = (b : ℚ) := by
      rw [heq]; field_simp
    have hfl : ⌊(pa - o) * (b : ℚ) / s⌋ = (b : ℤ) := by
      rw [hr]; exact Int.floor_natCast b
    have hd : childDigit b o s pa = b - 1 := by
      unfold childDigit
      rw [hfl]
      have h5 : max 0 (b : ℤ) = (b : ℤ) := max_eq_right (by positivity)
      rw [h5, Int.toNat_natCast]
      omega
    have hcast : ((childDigit b o s pa : ℕ) : ℚ) = (b : ℚ) - 1 := by
      rw [hd]
      have hb1 : (1 : ℕ) ≤ b := by omega
      push_cast [Nat.cast_sub hb1]
      ring
    refine ⟨by omega, ?_, ?_⟩
    · rw [hcast, heq]
      have : ((b : ℚ) - 1) * (s / (b : ℚ)) = s - s / (b : ℚ) := by
        field_simp; ring
      rw [this]
      have : 0 < s / (b : ℚ) := by positivity
      linarith
    · rw [hcast, heq]
      have : ((b : ℚ) - 1) * (s / (b : ℚ)) + s / (b : ℚ) = s := by
        field_simp; ring
      linarith [le_of_eq this.symm]

theorem two_digit_lt {b d0 d1 : Nat} (h0 : d0 < b) (h1 : d1 < b) :
    d0 + b * d1 < b * b := by
  have ha : d0 + b * d1 < b + b * d1 := Nat.add_lt_add_right h0 _
  have hb' : b + b * d1 = b * (d1 + 1) := by ring
  have hc : b * (d1 + 1) ≤ b * b := Nat.mul_le_mul_left b (by omega)
  omega

theorem linearize_lt {b dim : Nat} (hb : 2 ≤ b) (hdim : dim ≤ 3) {d : Fin 3 → Nat}
    (hlt : ∀ a : Fin 3, a.val < dim → d a < b) (hz : ∀ a : Fin 3, dim ≤ a.val → d a = 0) :
    linearize b d < b ^ dim := by
  unfold linearize
  interval_cases dim
  · simp [hz 0 (by omega), hz 1 (by omega), hz 2 (by omega)]
  · have h0 := hlt 0 (by omega)
    rw [hz 1 (by omega), hz 2 (by omega)]
    simpa using h0
  · have h0 := hlt 0 (by omega)
    have h1 := hlt 1 (by omega)
    rw [hz 2 (by omega)]
    simp only [Nat.mul_zero, Nat.add_zero]
    have := two_digit_lt h0 h1
    have hpow : b ^ 2 = b * b := sq b
    omega
  · have h0 := hlt 0 (by omega)
    have h1 := hlt 1 (by omega)
    have h2 := hlt 2 (by omega)
    have s1 : d 1 + b * d 2 < b * b := two_digit_lt h1 h2
    have s2a : d 0 + b * (d 1 + b * d 2) < b + b * (d 1 + b * d 2) :=
      Nat.add_lt_add_right h0 _
    have s2b : b + b * (d 1 + b * d 2) = b * ((d 1 + b * d 2) + 1) := by ring
    have s2c : b * ((d 1 + b * d 2) + 1) ≤ b * (b * b) :=
      Nat.mul_le_mul_left b (by omega)
    have hpow : b ^ 3 = b * (b * b) := by ring
    omega

theorem digitOf_linearize {b : Nat} (hb : 2 ≤ b) {d : Fin 3 → Nat}
    (hlt : ∀ a : Fin 3, d a < b) (a : Fin 3) :
    digitOf b (linearize b d) a = d a := by
  have hbpos : 0 < b := by omega
  have hdiv1 : (d 0 + b * (d 1 + b * d 2)) / b = d 1 + b * d 2 := by
    rw [Nat.add_mul_div_left _ _ hbpos, Nat.div_eq_of_lt (hlt 0)]
    omega
  have hdiv2 : (d 0 + b * (d 1 + b * d 2)) / b ^ 2 = d 2 := by
    have hlow : d 0 + b * d 1 < b ^ 2 := by
      have := two_digit_lt (hlt 0) (hlt 1)
      have hpow : b ^ 2 = b * b := sq b
      omega
    have hrw : d 0 + b * (d 1 + b * d 2) = (d 0 + b * d 1) + b ^ 2 * d 2 := by ring
    rw [hrw, Nat.add_mul_div_left _ _ (by positivity), Nat.div_eq_of_lt hlow]
    omega
  fin_cases a
  · show (d 0 + b * (d 1 + b * d 2)) / b ^ 0 % b = d 0
    rw [pow_zero, Nat.div_one, Nat.add_mul_mod_self_left, Nat.mod_eq_of_lt (hlt 0)]
  · show (d 0 + b * (d 1 + b * d 2)) / b ^ 1 % b = d 1
    rw [pow_one, hdiv1, Nat.add_mul_mod_self_left, Nat.mod_eq_of_lt (hlt 1)]
  · show (d 0 + b * (d 1 + b * d 2)) / b ^ 2 % b = d 2
    rw [hdiv2, Nat.mod_eq_of_lt (hlt 2)]

/-- Reconstruction of a linear child index below `b ^ 3` from its three
digits. -/
theorem linearize_digitOf {b c : Nat} (hb : 2 ≤ b) (hc : c < b ^ 3) :
    linearize b (digitOf b c) = c := by
  have hbpos : 0 < b := by omega
  show c / b ^ (0 : Fin 3).val % b + b * (c / b ^ (1 : Fin 3).val % b +
      b * (c / b ^ (2 : Fin 3).val % b)) = c
  have e2 : c / b ^ (2 : Fin 3).val = c / b / b := by
    show c / b ^ 2 = c / b / b
    rw [Nat.div_div_eq_div_mul, sq]
  rw [e2]
  have hc2 : c / b / b < b := by
    rw [Nat.div_div_eq_div_mul]
    apply Nat.div_lt_of_lt_mul
    calc c < b ^ 3 := hc
      _ = b * b * b := by ring
  rw [Nat.mod_eq_of_lt hc2]
  show c / b ^ 0 % b + b * (c / b ^ 1 % b + b * (c / b / b)) = c
  rw [pow_zero, Nat.div_one, pow_one, Nat.mod_add_div (c / b) b, Nat.mod_add_div c b]

theorem digit_inj {b dim c c' : Nat} (hb : 2 ≤ b) (hdim : dim ≤ 3)
    (hc : c < b ^ dim) (hc' : c' < b ^ dim)
    (h : ∀ a : Fin 3, a.val < dim → digitOf b c a = digitOf b c' a) : c = c' := by
  have hble : b ^ dim ≤ b ^ 3 := Nat.pow_le_pow_right (by omega) hdim
  have hc3 : c < b ^ 3 := lt_of_lt_of_le hc hble
  have hc3' : c' < b ^ 3 := lt_of_lt_of_le hc' hble
  have hall : ∀ a : Fin 3, digitOf b c a = digitOf b c' a := by
    intro a
    by_cases ha : a.val < dim
    · exact h a ha
    · have hdiv : ∀ m, m < b ^ dim → m / b ^ a.val = 0 := by
        intro m hm
        apply Nat.div_eq_of_lt
        exact lt_of_lt_of_le hm (Nat.pow_le_pow_right (by omega) (by omega))
      unfold digitOf
      rw [hdiv c hc, hdiv c' hc']
  have := congrArg (linearize b) (funext hall)
  rwa [linearize_digitOf hb hc3, linearize_digitOf hb hc3'] at this

theorem wfListB_forall {b dim : Nat} : ∀ {cs : List HTree},
    wfListB b dim cs = true → ∀ t ∈ cs, t.wfB b dim = true := by
  intro cs
  induction cs with
  | nil => intro _ t ht; simp at ht
  | cons x xs ih =>
    intro h t ht
    simp only [wfListB, Bool.and_eq_true] at h
    rcases List.mem_cons.mp ht with rfl | hmem
    · exact h.1
    · exact ih h.2 t hmem

theorem depthList_ge {cs : List HTree} : ∀ t ∈ cs, t.depth ≤ depthList cs := by
  induction cs with
  | nil => simp
  | cons x xs ih =>
    intro t ht
    rcases List.mem_cons.mp ht with rfl | hmem
    · simp [depthList, le_max_iff]
    · exact le_trans (ih t hmem) (by simp [depthList, le_max_iff])

/-- Unpacked well-formedness of a grid. -/
theorem sortedB_chain' : ∀ {xs : List ℚ}, sortedB xs = true → List.Chain' (· < ·) xs := by
  intro xs
  induction xs with
  | nil => intro _; exact List.chain'_nil
  | cons x ys ih =>
    cases ys with
    | nil => intro _; simp
    | cons y rest =>
      intro h
      unfold sortedB at h
      rw [Bool.and_eq_true, decide_eq_true_eq] at h
      exact List.chain'_cons.mpr ⟨h.1, ih h.2⟩

theorem HTG.wf_unpack {g : HTG} (h : g.wfB = true) :
    1 ≤ g.dim ∧ g.dim ≤ 3 ∧ 2 ≤ g.branch ∧
    (∀ a : Fin 3, a.val < g.dim →
      2 ≤ (g.coords a).length ∧ List.Chain' (· < ·) (g.coords a)) ∧
    g.trees.length = numRoots g ∧ (∀ t ∈ g.trees, t.wfB g.branch g.dim = true) := by
  unfold HTG.wfB at h
  simp only [Bool.and_eq_true] at h
  obtain ⟨⟨⟨⟨⟨h1, h2⟩, h3⟩, h4⟩, h5⟩, h6⟩ := h
  rw [List.all_eq_true] at h4
  refine ⟨by simpa using h1, by simpa using h2, by simpa using h3, ?_, ?_, wfListB_forall h6⟩
  · intro a ha
    have := h4 a (mem_activeAxes.mpr ha)
    rw [Bool.and_eq_true] at this
    exact ⟨by simpa using this.1, sortedB_chain' this.2⟩
  · simpa using h5

theorem childDigits_lt {dim b : Nat} (hb : 2 ≤ b) {o s p : V3}
    (hp : inBoxHO dim o s p) : ∀ a : Fin 3, childDigits dim b o s p a < b := by
  intro a
  unfold childDigits
  by_cases ha : a.val < dim
  · rw [if_pos ha]
    exact (childDigit_halfOpen hb (hp a ha).1 (hp a ha).2).1
  · rw [if_neg ha]; omega

theorem childDigits_zero {dim b : Nat} {o s p : V3} :
    ∀ a : Fin 3, dim ≤ a.val → childDigits dim b o s p a = 0 := by
  intro a ha
  unfold childDigits
  rw [if_neg (by omega)]

/-- One descent step stays inside the half-open child cell: the
linearised child index is in range and the child's half-open box still
contains the point. -/
theorem childStep_HO {dim b : Nat} (hb : 2 ≤ b) (hdim : dim ≤ 3) {o s p : V3}
    (hp : inBoxHO dim o s p) :
    linearize b (childDigits dim b o s p) < b ^ dim ∧
    inBoxHO dim (childBoxO dim b o s (linearize b (childDigits dim b o s p)))
      (childBoxS dim b s) p := by
  have hall := childDigits_lt (o := o) (s := s) (p := p) hb hp
  have hz := @childDigits_zero dim b o s p
  refine ⟨linearize_lt hb hdim (fun a _ => hall a) hz, ?_⟩
  intro a ha
  have hdig := digitOf_linearize hb hall a
  unfold childBoxO childBoxS
  rw [if_pos ha, if_pos ha, hdig]
  unfold childDigits
  rw [if_pos ha]
  obtain ⟨_, h2, h3⟩ := childDigit_halfOpen hb (hp a ha).1 (hp a ha).2
  exact ⟨h2, h3⟩

/-- One descent step from a closed cell stays inside the closed child
cell (the clamp absorbs the upper face). -/
theorem childStep_C {dim b : Nat} (hb : 2 ≤ b) (hdim : dim ≤ 3) {o s p : V3}
    (hp : inBoxC dim o s p) (hs : posSize dim s) :
    linearize b (childDigits dim b o s p) < b ^ dim ∧
    inBoxC dim (childBoxO dim b o s (linearize b (childDigits dim b o s p)))
      (childBoxS dim b s) p := by
  have hall : ∀ a : Fin 3, childDigits dim b o s p a < b := by
    intro a
    unfold childDigits
    by_cases ha : a.val < dim
    · rw [if_pos ha]
      exact (childDigit_closed hb (hs a ha) (hp a ha).1 (hp a ha).2).1
    · rw [if_neg ha]; omega
  have hz := @childDigits_zero dim b o s p
  refine ⟨linearize_lt hb hdim (fun a _ => hall a) hz, ?_⟩
  intro a ha
  have hdig := digitOf_linearize hb hall a
  unfold childBoxO childBoxS
  rw [if_pos ha, if_pos ha, hdig]
  unfold childDigits
  rw [if_pos ha]
  obtain ⟨_, h2, h3⟩ := childDigit_closed hb (hs a ha) (hp a ha).1 (hp a ha).2
  exact ⟨h2, h3⟩

theorem posSize_child {dim b : Nat} (hb : 2 ≤ b) {s : V3} (hs : posSize dim s) :
    posSize dim (childBoxS dim b s) := by
  intro a ha
  unfold childBoxS
  rw [if_pos ha]
  have : (0 : ℚ) < (b : ℚ) := by positivity
  exact div_pos (hs a ha) this

/-- Every child box is contained in its parent box (closed inclusion). -/
theorem childBox_sub {dim b : Nat} (hb : 2 ≤ b) {o s : V3}
    (hs : ∀ a : Fin 3, a.val < dim → 0 ≤ s a) (c : Nat) :
    ∀ a : Fin 3, a.val < dim →
      o a ≤ childBoxO dim b o s c a ∧
      childBoxO dim b o s c a + childBoxS dim b s a ≤ o a + s a := by
  intro a ha
  unfold childBoxO childBoxS
  rw [if_pos ha, if_pos ha]
  have hbQ : (0 : ℚ) < (b : ℚ) := by positivity
  have hd : digitOf b c a < b := Nat.mod_lt _ (by omega)
  have hsb : 0 ≤ s a / (b : ℚ) := div_nonneg (hs a ha) (le_of_lt hbQ)
  constructor
  · have : 0 ≤ (digitOf b c a : ℚ) * (s a / (b : ℚ)) := by positivity
    linarith
  · have h1 : ((digitOf b c a : ℚ) + 1) * (s a / (b : ℚ)) ≤ (b : ℚ) * (s a / (b : ℚ)) := by
      apply mul_le_mul_of_nonneg_right _ hsb
      have : (digitOf b c a : ℚ) + 1 ≤ (b : ℚ) := by exact_mod_cast hd
      exact this
    have h2 : (b : ℚ) * (s a / (b : ℚ)) = s a := by field_simp
    nlinarith [h1, h2]

/-- Every id in `childrenBases` exceeds the parent id. -/
theorem childrenBases_gt {base : Nat} {cs : List HTree} :
    ∀ x ∈ childrenBases base cs, base + 1 ≤ x := by
  intro x hx
  unfold childrenBases at hx
  obtain ⟨c, _, rfl⟩ := List.mem_map.mp hx
  unfold childBase
  omega

theorem childBase_mem {base : Nat} {cs : List HTree} {c : Nat} (hc : c < cs.length) :
    childBase base cs c ∈ childrenBases base cs := by
  unfold childrenBases
  exact List.mem_map.mpr ⟨c, List.mem_range.mpr hc, rfl⟩

/-- The main descent lemma: from any well-formed cell whose half-open
box contains the point and with enough fuel, the geometric containing
leaf exists, its half-open box contains the point, and when that leaf is
unmasked the descent rests at a cell whose half-open box contains the
point. -/
theorem descend_main {mask : Nat → Bool} {dim b : Nat} {p : V3}
    (hb : 2 ≤ b) (hdim : dim ≤ 3) :
    ∀ fuel : Nat, ∀ tree : HTree, ∀ o s : V3, ∀ base : Nat,
      tree.wfB b dim = true → inBoxHO dim o s p → tree.depth < fuel →
      ∃ bL oL sL, containingLeaf dim b p fuel tree o s base = some (bL, oL, sL) ∧
        inBoxHO dim oL sL p ∧
        (mask bL = false →
          ∃ i o' s', descend mask dim b p fuel tree o s base = .found i o' s' ∧
            inBoxHO dim o' s' p) := by
  intro fuel
  induction fuel with
  | zero => intro tree o s base _ _ hd; omega
  | succ f ih =>
    intro tree o s base hwf hp _
    cases tree with
    | leaf =>
      refine ⟨base, o, s, rfl, hp, ?_⟩
      intro hm
      exact ⟨base, o, s, by simp [descend, hm], hp⟩
    | node cs =>
      simp only [HTree.wfB, Bool.and_eq_true, beq_iff_eq] at hwf
      obtain ⟨hlen, hwfl⟩ := hwf
      obtain ⟨hclt, hcp⟩ := childStep_HO hb hdim hp
      have hcs : linearize b (childDigits dim b o s p) < cs.length := by omega
      have hget : cs[linearize b (childDigits dim b o s p)]? =
          some cs[linearize b (childDigits dim b o s p)] :=
        List.getElem?_eq_getElem hcs
      have hmem : cs[linearize b (childDigits dim b o s p)] ∈ cs := List.getElem_mem hcs
      have hwfc : cs[linearize b (childDigits dim b o s p)].wfB b dim = true :=
        wfListB_forall hwfl _ hmem
      have hdep : cs[linearize b (childDigits dim b o s p)].depth < f := by
        have h1 : cs[linearize b (childDigits dim b o s p)].depth ≤ depthList cs :=
          depthList_ge _ hmem
        have h2 : (HTree.node cs).depth = 1 + depthList cs := rfl
        omega
      obtain ⟨bL, oL, sL, hclf, hpl, hfound⟩ :=
        ih cs[linearize b (childDigits dim b o s p)]
          (childBoxO dim b o s (linearize b (childDigits dim b o s p)))
          (childBoxS dim b s)
          (childBase base cs (linearize b (childDigits dim b o s p)))
          hwfc hcp hdep
      refine ⟨bL, oL, sL, ?_, hpl, ?_⟩
      · unfold containingLeaf
        rw [hget]
        exact hclf
      · intro hm
        by_cases hall : (childrenBases base cs).all mask
        · exact ⟨base, o, s, by simp [descend, hall], hp⟩
        · obtain ⟨i, o', s', hd, hp'⟩ := hfound hm
          refine ⟨i, o', s', ?_, hp'⟩
          unfold descend
          rw [if_neg (by simpa using hall), hget]
          exact hd

/-- When the descent reaches a leaf (no mask-parent fallback fires), the
result is exactly determined by that leaf's mask state: the masked
sentinel on a masked leaf, the leaf's id otherwise. -/
theorem noFallback_descend {mask : Nat → Bool} {dim b : Nat} {p : V3} :
    ∀ fuel : Nat, ∀ tree : HTree, ∀ o s : V3, ∀ base : Nat,
      noFallback mask dim b p fuel tree o s base = true →
      ∃ bL oL sL, containingLeaf dim b p fuel tree o s base = some (bL, oL, sL) ∧
        descend mask dim b p fuel tree o s base =
          (if mask bL then DescOut.masked else .found bL oL sL) := by
  intro fuel
  induction fuel with
  | zero => intro tree o s base h; simp [noFallback] at h
  | succ f ih =>
    intro tree o s base h
    cases tree with
    | leaf => exact ⟨base, o, s, rfl, rfl⟩
    | node cs =>
      unfold noFallback at h
      rw [Bool.and_eq_true] at h
      obtain ⟨hnall, hrec⟩ := h
      have hnall' : ¬((childrenBases base cs).all mask = true) := by simpa using hnall
      cases hget : cs[linearize b (childDigits dim b o s p)]? with
      | none => rw [hget] at hrec; simp at hrec
      | some t =>
        rw [hget] at hrec
        obtain ⟨bL, oL, sL, hcl, hd⟩ := ih t _ _ _ hrec
        refine ⟨bL, oL, sL, ?_, ?_⟩
        · unfold containingLeaf
          rw [hget]
          exact hcl
        · unfold descend
          rw [if_neg hnall', hget]
          exact hd

theorem mixedRadix_lt {n0 n1 n2 i0 i1 i2 : Nat} (h0 : i0 < n0) (h1 : i1 < n1)
    (h2 : i2 < n2) : i0 + n0 * (i1 + n1 * i2) < n0 * (n1 * n2) := by
  have s1 : i1 + n1 * i2 < n1 * n2 := by
    have ha : i1 + n1 * i2 < n1 + n1 * i2 := Nat.add_lt_add_right h1 _
    have hb : n1 + n1 * i2 = n1 * (i2 + 1) := by ring
    have hc : n1 * (i2 + 1) ≤ n1 * n2 := Nat.mul_le_mul_left n1 (by omega)
    omega
  have ha : i0 + n0 * (i1 + n1 * i2) < n0 + n0 * (i1 + n1 * i2) :=
    Nat.add_lt_add_right h0 _
  have hb : n0 + n0 * (i1 + n1 * i2) = n0 * ((i1 + n1 * i2) + 1) := by ring
  have hc : n0 * ((i1 + n1 * i2) + 1) ≤ n0 * (n1 * n2) := Nat.mul_le_mul_left n0 (by omega)
  omega

/-- Mixed-radix round trip for root indices. -/
theorem rootDigits_rootLinear {g : HTG} {i : Fin 3 → Nat}
    (h : ∀ a : Fin 3, i a < nAxis g a) :
    ∀ a : Fin 3, rootDigits g (rootLinear g i) a = i a := by
  have h0 := h 0
  have h1 := h 1
  have h2 := h 2
  have hn0 : 0 < nAxis g 0 := by omega
  have hn1 : 0 < nAxis g 1 := by omega
  have hlow : i 0 + nAxis g 0 * i 1 < nAxis g 0 * nAxis g 1 := by
    have ha : i 0 + nAxis g 0 * i 1 < nAxis g 0 + nAxis g 0 * i 1 :=
      Nat.add_lt_add_right h0 _
    have hb : nAxis g 0 + nAxis g 0 * i 1 = nAxis g 0 * (i 1 + 1) := by ring
    have hc : nAxis g 0 * (i 1 + 1) ≤ nAxis g 0 * nAxis g 1 :=
      Nat.mul_le_mul_left _ (by omega)
    omega
  have hdiv1 : rootLinear g i / nAxis g 0 = i 1 + nAxis g 1 * i 2 := by
    unfold rootLinear
    rw [Nat.add_mul_div_left _ _ hn0, Nat.div_eq_of_lt h0]
    omega
  have hdiv2 : rootLinear g i / (nAxis g 0 * nAxis g 1) = i 2 := by
    unfold rootLinear
    have hrw : i 0 + nAxis g 0 * (i 1 + nAxis g 1 * i 2) =
        (i 0 + nAxis g 0 * i 1) + (nAxis g 0 * nAxis g 1) * i 2 := by ring
    rw [hrw, Nat.add_mul_div_left _ _ (by positivity), Nat.div_eq_of_lt hlow]
    omega
  intro a
  fin_cases a
  · show rootLinear g i % nAxis g 0 = i 0
    unfold rootLinear
    rw [Nat.add_mul_mod_self_left, Nat.mod_eq_of_lt h0]
  · show rootLinear g i / nAxis g 0 % nAxis g 1 = i 1
    rw [hdiv1, Nat.add_mul_mod_self_left, Nat.mod_eq_of_lt h1]
  · show rootLinear g i / (nAxis g 0 * nAxis g 1) = i 2
    exact hdiv2

/-- The root located for an in-domain point is in range, and the root
cell's half-open box contains the point. -/
theorem root_setup {g : HTG} {p : V3} (hwf : g.wfB = true)
    (hdom : inDomainB g p = true) :
    (∀ a : Fin 3, rootIndexOf g p a < nAxis g a) ∧
    rootLinear g (rootIndexOf g p) < g.trees.length ∧
    inBoxHO g.dim (rootBoxO g (rootIndexOf g p)) (rootBoxS g (rootIndexOf g p)) p := by
  obtain ⟨hd1, hd3, hb2, hcoords, hlen, _⟩ := HTG.wf_unpack hwf
  unfold inDomainB at hdom
  rw [List.all_eq_true] at hdom
  have hax : ∀ a : Fin 3, a.val < g.dim →
      findInterval (g.coords a) (p a) + 1 < (g.coords a).length ∧
      (g.coords a).getD (findInterval (g.coords a) (p a)) 0 ≤ p a ∧
      p a < (g.coords a).getD (findInterval (g.coords a) (p a) + 1) 0 := by
    intro a ha
    have hmem := hdom a (mem_activeAxes.mpr ha)
    rw [Bool.and_eq_true, decide_eq_true_eq, decide_eq_true_eq] at hmem
    exact findInterval_spec _ _ (hcoords a ha).2 (hcoords a ha).1 hmem.1 hmem.2
  have hidx : ∀ a : Fin 3, rootIndexOf g p a < nAxis g a := by
    intro a
    unfold rootIndexOf nAxis
    by_cases ha : a.val < g.dim
    · rw [if_pos ha, if_pos ha]
      have := (hax a ha).1
      omega
    · rw [if_neg ha, if_neg ha]
      omega
  refine ⟨hidx, ?_, ?_⟩
  · have := mixedRadix_lt (hidx 0) (hidx 1) (hidx 2)
    unfold rootLinear
    unfold numRoots at hlen
    omega
  · intro a ha
    unfold rootBoxO rootBoxS rootIndexOf
    rw [if_pos ha, if_pos ha, if_pos ha]
    obtain ⟨_, hlo, hhi⟩ := hax a ha
    exact ⟨hlo, by linarith⟩

/-- C1: for every point p inside the grid's half-open domain whose
containing leaf is unmasked, search(p) returns a nonnegative id, and the
half-open box of the cell the query rests at contains p on every active
axis. -/
theorem C1_search_returns_containing_cell (g : HTG) (p : V3) (bL : Nat) (oL sL : V3)
    (hwf : g.wfB = true) (hdom : inDomainB g p = true)
    (hleaf : leafOfRoot g p = some (bL, oL, sL)) (hm : g.mask bL = false) :
    0 ≤ search g p ∧
    ∃ i o' s', searchResult g p = .found i o' s' ∧ search g p = (i : Int) ∧
      inBoxHO g.dim o' s' p := by
  obtain ⟨hd1, hd3, hb2, _, _, htrees⟩ := HTG.wf_unpack hwf
  obtain ⟨hidx, hr, hbox⟩ := root_setup hwf hdom
  have hget : g.trees[rootLinear g (rootIndexOf g p)]? =
      some g.trees[rootLinear g (rootIndexOf g p)] := List.getElem?_eq_getElem hr
  have hwft : g.trees[rootLinear g (rootIndexOf g p)].wfB g.branch g.dim = true :=
    htrees _ (List.getElem_mem hr)
  obtain ⟨bL', oL', sL', hcl, hpl, hfound⟩ :=
    @descend_main g.mask g.dim g.branch p hb2 hd3
      (g.trees[rootLinear g (rootIndexOf g p)].depth + 1)
      g.trees[rootLinear g (rootIndexOf g p)] _ _
      (treeBase g (rootLinear g (rootIndexOf g p))) hwft hbox (by omega)
  have hleaf' : leafOfRoot g p = some (bL', oL', sL') := by
    unfold leafOfRoot
    rw [if_pos hdom]
    simp only [hget]
    exact hcl
  rw [hleaf] at hleaf'
  have htup : (bL, oL, sL) = (bL', oL', sL') := by
    injection hleaf'
  have hbEq : bL = bL' := congrArg Prod.fst htup
  obtain ⟨i, o', s', hdesc, hp'⟩ := hfound (hbEq ▸ hm)
  have hsr : searchResult g p = .found i o' s' := by
    unfold searchResult
    rw [if_pos hdom]
    simp only [hget]
    exact hdesc
  refine ⟨?_, i, o', s', hsr, ?_, hp'⟩
  · unfold search
    rw [hsr]
    simp [toId]
  · unfold search
    rw [hsr]
    rfl

/-- Shared form of the masked-leaf contract: when the descent reaches
the containing leaf, the query result is decided by that leaf's mask
flag alone. -/
theorem search_noFallback_spec (g : HTG) (p : V3) (bL : Nat) (oL sL : V3)
    (hnofb : noFallbackAt g p = true)
    (hleaf : leafOfRoot g p = some (bL, oL, sL)) :
    (g.mask bL = true → search g p = -1) ∧
    (g.mask bL = false → search g p = (bL : Int)) := by
  unfold noFallbackAt at hnofb
  by_cases hdom : inDomainB g p = true
  · rw [if_pos hdom] at hnofb
    cases hget : g.trees[rootLinear g (rootIndexOf g p)]? with
    | none => rw [hget] at hnofb; simp at hnofb
    | some t =>
      rw [hget] at hnofb
      obtain ⟨bL', oL', sL', hcl, hd⟩ := noFallback_descend _ t _ _ _ hnofb
      have hleaf' : leafOfRoot g p = some (bL', oL', sL') := by
        unfold leafOfRoot
        rw [if_pos hdom]
        simp only [hget]
        exact hcl
      rw [hleaf] at hleaf'
      have htup : (bL, oL, sL) = (bL', oL', sL') := by
        injection hleaf'
      have hbEq : bL = bL' := congrArg Prod.fst htup
      have hsr : searchResult g p =
          (if g.mask bL' then DescOut.masked else .found bL' oL' sL') := by
        unfold searchResult
        rw [if_pos hdom]
        simp only [hget]
        exact hd
      constructor
      · intro hm
        unfold search
        rw [hsr, if_pos (hbEq ▸ hm)]
        rfl
      · intro hm
        unfold search
        rw [hsr, if_neg (by rw [← hbEq, hm]; simp)]
        rw [hbEq]
        rfl
  · rw [if_neg hdom] at hnofb
    exact absurd hnofb (by simp)

/-- C3: if the descent for an in-domain point runs all the way to its
containing leaf (no mask-parent fallback fires), then search returns -1
exactly when that leaf is masked, and the leaf's nonnegative global id
when it is unmasked. -/
theorem C3_masked_leaf_sentinel (g : HTG) (p : V3) (bL : Nat) (oL sL : V3)
    (hnofb : noFallbackAt g p = true)
    (hleaf : leafOfRoot g p = some (bL, oL, sL)) :
    (g.mask bL = true → search g p = -1) ∧
    (g.mask bL = false → search g p = (bL : Int)) :=
  search_noFallback_spec g p bL oL sL hnofb hleaf

/-- A raw point that passes the executable domain check lies in the
half-open domain: all its active components are finite and in range. -/
theorem inDomainX_of_inDomainXB {g : HTG} {p : Fin 3 → XCoord}
    (h : inDomainXB g p = true) : inDomainX g p := by
  rw [inDomainXB, List.all_eq_true] at h
  intro a ha
  have hx := h a (mem_activeAxes.mpr ha)
  rw [Bool.and_eq_true] at hx
  cases hpa : p a
  case nan =>
    rw [hpa] at hx
    simp [XCoord.le] at hx
  case ninf =>
    rw [hpa] at hx
    simp [XCoord.le] at hx
  case pinf =>
    rw [hpa] at hx
    simp [XCoord.lt] at hx
  case fin q =>
    rw [hpa] at hx
    refine ⟨rfl, ?_, ?_⟩
    · simpa [XCoord.le, XCoord.val] using hx.1
    · simpa [XCoord.lt, XCoord.val] using hx.2

/-- C4: search returns a negative id (status out-of-domain) for every
point that is not in the grid's half-open domain — also for finite
points below the lower face or at or past the upper face on any active
axis; in particular for any point with a NaN or infinite active
component, and for the point whose active components all equal the last
entry of the corresponding coordinate array (the upper face of the
outer grid is excluded). -/
theorem C4_out_of_domain_negative (g : HTG) (hwf : g.wfB = true) :
    (∀ p : Fin 3 → XCoord, ¬ inDomainX g p →
      searchX g p = .outOfDomain ∧ toId (searchX g p) < 0) ∧
    (∀ p : Fin 3 → XCoord, (∃ a : Fin 3, a.val < g.dim ∧ (p a).isFin = false) →
      searchX g p = .outOfDomain ∧ toId (searchX g p) < 0) ∧
    (searchX g (fun a => XCoord.fin (lastC g a)) = .outOfDomain ∧
      toId (searchX g (fun a => XCoord.fin (lastC g a))) < 0) := by
  obtain ⟨hd1, _, _, _, _, _⟩ := HTG.wf_unpack hwf
  have huniv : ∀ p : Fin 3 → XCoord, ¬ inDomainX g p →
      searchX g p = .outOfDomain ∧ toId (searchX g p) < 0 := by
    intro p hnd
    have hb : ¬(inDomainXB g p = true) := fun hall => hnd (inDomainX_of_inDomainXB hall)
    have hs : searchX g p = .outOfDomain := by
      unfold searchX
      rw [if_neg hb]
    exact ⟨hs, by rw [hs]; norm_num [toId]⟩
  refine ⟨huniv, ?_, ?_⟩
  · intro p ⟨a, ha, hfin⟩
    apply huniv
    intro hdom
    have h1 := (hdom a ha).1
    rw [hfin] at h1
    simp at h1
  · apply huniv
    intro hdom
    have h0 : (0 : Nat) < g.dim := by omega
    have h2 := (hdom ⟨0, by omega⟩ h0).2.2
    simp [XCoord.val] at h2

theorem sum_map_mul (l : List ℚ) (c : ℚ) : (l.map (· * c)).sum = l.sum * c := by
  induction l with
  | nil => simp
  | cons x xs ih => simp [ih, add_mul]

/-- The multilinear basis weights always sum to exactly 1. -/
theorem weightsRec_sum (d : Nat) (xi : Nat → ℚ) : (weightsRec d xi).sum = 1 := by
  induction d with
  | zero => simp [weightsRec]
  | succ n ih =>
    simp only [weightsRec, List.sum_append, sum_map_mul, ih]
    ring

theorem weightsRec_length (d : Nat) (xi : Nat → ℚ) :
    (weightsRec d xi).length = 2 ^ d := by
  induction d with
  | zero => simp [weightsRec]
  | succ n ih =>
    simp only [weightsRec, List.length_append, List.length_map, ih]
    ring

/-- C5: on a successful point search, find_cell returns the found
nonnegative cell id together with 2^dim basis weights whose sum is 1 up
to the stated bound: the defect is below 4 * dim * eps for every
positive eps (the weights are exact in rational arithmetic). -/
theorem C5_findCell_weights (g : HTG) (p : V3) (i : Nat) (o s : V3) (eps : ℚ)
    (hwf : g.wfB = true) (heps : 0 < eps)
    (hfound : searchResult g p = .found i o s) :
    ∃ ws, findCell g p = some (i, ws) ∧ ws.length = 2 ^ g.dim ∧
      |1 - ws.sum| < 4 * (g.dim : ℚ) * eps := by
  obtain ⟨hd1, _, _, _, _, _⟩ := HTG.wf_unpack hwf
  refine ⟨weightsRec g.dim (xiOf g.dim o s p), ?_, weightsRec_length _ _, ?_⟩
  · unfold findCell
    rw [hfound]
  · rw [weightsRec_sum, sub_self, abs_zero]
    have hdQ : (0 : ℚ) < (g.dim : ℚ) := by exact_mod_cast hd1
    positivity

theorem slabGo_bounds {aPt bPt o s : V3} :
    ∀ l : List (Fin 3), ∀ lo hi lo' hi' : ℚ,
      slabGo aPt bPt o s l (lo, hi) = some (lo', hi') → lo ≤ lo' ∧ hi' ≤ hi := by
  intro l
  induction l with
  | nil =>
    intro lo hi lo' hi' h
    unfold slabGo at h
    injection h with h
    exact ⟨le_of_eq (congrArg Prod.fst h), le_of_eq (congrArg Prod.snd h.symm)⟩
  | cons ax rest ih =>
    intro lo hi lo' hi' h
    unfold slabGo at h
    by_cases hd : bPt ax - aPt ax = 0
    · rw [if_pos hd] at h
      by_cases hin : o ax ≤ aPt ax ∧ aPt ax ≤ o ax + s ax
      · rw [if_pos hin] at h
        exact ih _ _ _ _ h
      · rw [if_neg hin] at h
        cases h
    · rw [if_neg hd] at h
      obtain ⟨h1, h2⟩ := ih _ _ _ _ h
      exact ⟨le_trans (le_max_left _ _) h1, le_trans h2 (min_le_left _ _)⟩

theorem slabGo_mem {aPt bPt o s : V3} :
    ∀ l : List (Fin 3), (∀ ax ∈ l, 0 ≤ s ax) →
    ∀ lo hi lo' hi' : ℚ,
      slabGo aPt bPt o s l (lo, hi) = some (lo', hi') →
      ∀ t : ℚ, lo' ≤ t → t ≤ hi' →
      ∀ ax ∈ l, o ax ≤ aPt ax + t * (bPt ax - aPt ax) ∧
        aPt ax + t * (bPt ax - aPt ax) ≤ o ax + s ax := by
  intro l
  induction l with
  | nil =>
    intro _ _ _ _ _ _ _ _ _ ax hax
    simp at hax
  | cons ax0 rest ih =>
    intro hs lo hi lo' hi' h t ht1 ht2 ax hax
    have hs0 : 0 ≤ s ax0 := hs ax0 (List.mem_cons_self _ _)
    have hsrest : ∀ ax ∈ rest, 0 ≤ s ax := fun ax hax => hs ax (List.mem_cons_of_mem _ hax)
    unfold slabGo at h
    by_cases hd : bPt ax0 - aPt ax0 = 0
    · rw [if_pos hd] at h
      by_cases hin : o ax0 ≤ aPt ax0 ∧ aPt ax0 ≤ o ax0 + s ax0
      · rw [if_pos hin] at h
        rcases List.mem_cons.mp hax with rfl | hmem
        · rw [hd]
          constructor <;> [linarith [hin.1]; linarith [hin.2]]
        · exact ih hsrest _ _ _ _ h t ht1 ht2 ax hmem
      · rw [if_neg hin] at h
        cases h
    · rw [if_neg hd] at h
      rcases List.mem_cons.mp hax with rfl | hmem
      · obtain ⟨hb1, hb2⟩ := slabGo_bounds rest _ _ _ _ h
        set d := bPt ax - aPt ax with hdd
        set t1 := (o ax - aPt ax) / d with ht1d
        set t2 := (o ax + s ax - aPt ax) / d with ht2d
        have hmin : min t1 t2 ≤ t := le_trans (le_trans (le_max_right lo _) hb1) ht1
        have hmax : t ≤ max t1 t2 := le_trans ht2 (le_trans hb2 (min_le_right hi _))
        have hdiff : t2 - t1 = s ax / d := by
          rw [ht1d, ht2d, div_sub_div_same]
          ring_nf
        have ht1mul : t1 * d = o ax - aPt ax := by
          rw [ht1d]
          field_simp
        have ht2mul : t2 * d = o ax + s ax - aPt ax := by
          rw [ht2d]
          field_simp
        rcases lt_or_gt_of_ne hd with hneg | hpos
        · have hmaxeq : max t1 t2 = t1 := by
            have : s ax / d ≤ 0 := div_nonpos_of_nonneg_of_nonpos hs0 (le_of_lt hneg)
            have : t2 ≤ t1 := by linarith
            exact max_eq_left this
          have hmineq : min t1 t2 = t2 := by
            have : s ax / d ≤ 0 := div_nonpos_of_nonneg_of_nonpos hs0 (le_of_lt hneg)
            have : t2 ≤ t1 := by linarith
            exact min_eq_right this
          rw [hmaxeq] at hmax
          rw [hmineq] at hmin
          have hlow : t1 * d ≤ t * d := mul_le_mul_of_nonpos_right hmax (le_of_lt hneg)
          have hhigh : t * d ≤ t2 * d := mul_le_mul_of_nonpos_right hmin (le_of_lt hneg)
          rw [ht1mul] at hlow
          rw [ht2mul] at hhigh
          exact ⟨by linarith, by linarith⟩
        · have ht12 : t1 ≤ t2 := by
            have : 0 ≤ s ax / d := div_nonneg hs0 (le_of_lt hpos)
            linarith
          rw [min_eq_left ht12] at hmin
          rw [max_eq_right ht12] at hmax
          have hlow : t1 * d ≤ t * d := mul_le_mul_of_nonneg_right hmin (le_of_lt hpos)
          have hhigh : t * d ≤ t2 * d := mul_le_mul_of_nonneg_right hmax (le_of_lt hpos)
          rw [ht1mul] at hlow
          rw [ht2mul] at hhigh
          exact ⟨by linarith, by linarith⟩
      · exact ih hsrest _ _ _ _ h t ht1 ht2 ax hmem

theorem slabGo_inside {aPt bPt o s : V3} :
    ∀ l : List (Fin 3), (∀ ax ∈ l, o ax ≤ aPt ax ∧ aPt ax ≤ o ax + s ax) →
    ∀ lo hi : ℚ, lo ≤ 0 → 0 ≤ hi →
      ∃ lo' hi', slabGo aPt bPt o s l (lo, hi) = some (lo', hi') ∧ lo' ≤ 0 ∧ 0 ≤ hi' := by
  intro l
  induction l with
  | nil =>
    intro _ lo hi hlo hhi
    exact ⟨lo, hi, rfl, hlo, hhi⟩
  | cons ax0 rest ih =>
    intro hin lo hi hlo hhi
    have hin0 := hin ax0 (List.mem_cons_self _ _)
    have hinrest : ∀ ax ∈ rest, o ax ≤ aPt ax ∧ aPt ax ≤ o ax + s ax :=
      fun ax hax => hin ax (List.mem_cons_of_mem _ hax)
    unfold slabGo
    by_cases hd : bPt ax0 - aPt ax0 = 0
    · rw [if_pos hd, if_pos hin0]
      exact ih hinrest lo hi hlo hhi
    · rw [if_neg hd]
      set d := bPt ax0 - aPt ax0 with hdd
      set t1 := (o ax0 - aPt ax0) / d with ht1d
      set t2 := (o ax0 + s ax0 - aPt ax0) / d with ht2d
      have hminle : min t1 t2 ≤ 0 := by
        rcases lt_or_gt_of_ne hd with hneg | hpos
        · have : t2 ≤ 0 := div_nonpos_of_nonneg_of_nonpos (by linarith [hin0.2]) (le_of_lt hneg)
          exact le_trans (min_le_right _ _) this
        · have : t1 ≤ 0 := div_nonpos_of_nonpos_of_nonneg (by linarith [hin0.1]) (le_of_lt hpos)
          exact le_trans (min_le_left _ _) this
      have hmaxge : 0 ≤ max t1 t2 := by
        rcases lt_or_gt_of_ne hd with hneg | hpos
        · have : 0 ≤ t1 := div_nonneg_of_nonpos (by linarith [hin0.1]) (le_of_lt hneg)
          exact le_trans this (le_max_left _ _)
        · have : 0 ≤ t2 := div_nonneg (by linarith [hin0.2]) (le_of_lt hpos)
          exact le_trans this (le_max_right _ _)
      exact ih hinrest _ _ (max_le hlo hminle) (le_min hhi hmaxge)

theorem mem_join_map {α β : Type} {f : α → List β} {l : List α} {u : β} :
    u ∈ (l.map f).join ↔ ∃ x ∈ l, u ∈ f x := by
  rw [List.mem_join]
  constructor
  · rintro ⟨sl, hs, hu⟩
    obtain ⟨x, hx, rfl⟩ := List.mem_map.mp hs
    exact ⟨x, hx, hu⟩
  · rintro ⟨x, hx, hu⟩
    exact ⟨f x, List.mem_map.mpr ⟨x, hx, rfl⟩, hu⟩

theorem enum_mem_of_lt {α : Type} {cs : List α} {c : Nat} (hc : c < cs.length) :
    (c, cs[c]) ∈ cs.enum := by
  have hlen : c < cs.enum.length := by rw [List.enum_length]; exact hc
  have := List.getElem_enum cs c hlen
  rw [← this]
  exact List.getElem_mem hlen

/-- Every hit a cell's walk emits has its entry parameter in
`[0, 1 + tol]`: the interval starts clipped at the segment range and the
acceptance test bounds the overshoot by the tolerance. -/
theorem cellEmit_t_range {mask : Nat → Bool} {dim b : Nat} {aPt bPt : V3} {tol : ℚ}
    (htol : 0 ≤ tol) :
    ∀ fuel : Nat, ∀ tree : HTree, ∀ o s : V3, ∀ base : Nat,
      ∀ u ∈ cellEmit mask dim b aPt bPt tol fuel tree o s base,
      0 ≤ u.1 ∧ u.1 ≤ 1 + tol := by
  intro fuel
  induction fuel with
  | zero => intro tree o s base u hu; simp [cellEmit] at hu
  | succ f ih =>
    intro tree o s base u hu
    unfold cellEmit at hu
    cases hslab : slab dim aPt bPt o s with
    | none => rw [hslab] at hu; simp at hu
    | some lohi =>
      obtain ⟨lo, hi⟩ := lohi
      simp only [hslab] at hu
      by_cases hacc : hi < lo - tol
      · rw [if_pos hacc] at hu
        simp at hu
      · rw [if_neg hacc] at hu
        cases tree with
        | leaf =>
          by_cases hm : mask base = true
          · rw [if_pos hm] at hu
            simp at hu
          · rw [if_neg hm] at hu
            rw [List.mem_singleton] at hu
            subst hu
            unfold slab at hslab
            obtain ⟨hb1, hb2⟩ := slabGo_bounds _ _ _ _ _ hslab
            exact ⟨hb1, by simpa using le_trans (by linarith : lo ≤ hi + tol) (by linarith)⟩
        | node cs =>
          rw [mem_join_map] at hu
          obtain ⟨⟨c, t⟩, _, hu⟩ := hu
          exact ih t _ _ _ u hu

/-- Masked leaves are transparent: every emitted hit's cell is
unmasked. -/
theorem cellEmit_unmasked {mask : Nat → Bool} {dim b : Nat} {aPt bPt : V3} {tol : ℚ} :
    ∀ fuel : Nat, ∀ tree : HTree, ∀ o s : V3, ∀ base : Nat,
      ∀ u ∈ cellEmit mask dim b aPt bPt tol fuel tree o s base,
      mask u.2 = false := by
  intro fuel
  induction fuel with
  | zero => intro tree o s base u hu; simp [cellEmit] at hu
  | succ f ih =>
    intro tree o s base u hu
    unfold cellEmit at hu
    cases hslab : slab dim aPt bPt o s with
    | none => rw [hslab] at hu; simp at hu
    | some lohi =>
      obtain ⟨lo, hi⟩ := lohi
      simp only [hslab] at hu
      by_cases hacc : hi < lo - tol
      · rw [if_pos hacc] at hu
        simp at hu
      · rw [if_neg hacc] at hu
        cases tree with
        | leaf =>
          by_cases hm : mask base = true
          · rw [if_pos hm] at hu
            simp at hu
          · rw [if_neg hm] at hu
            rw [List.mem_singleton] at hu
            subst hu
            simpa using hm
        | node cs =>
          rw [mem_join_map] at hu
          obtain ⟨⟨c, t⟩, _, hu⟩ := hu
          exact ih t _ _ _ u hu

/-- With zero tolerance, the point of every emitted hit lies in the
closed box of the walked cell. -/
theorem cellEmit_mem_box {mask : Nat → Bool} {dim b : Nat} {aPt bPt : V3}
    (hb : 2 ≤ b) :
    ∀ fuel : Nat, ∀ tree : HTree, ∀ o s : V3, ∀ base : Nat,
      (∀ ax : Fin 3, ax.val < dim → 0 ≤ s ax) →
      ∀ u ∈ cellEmit mask dim b aPt bPt 0 fuel tree o s base,
      ∀ ax : Fin 3, ax.val < dim →
        o ax ≤ aPt ax + u.1 * (bPt ax - aPt ax) ∧
        aPt ax + u.1 * (bPt ax - aPt ax) ≤ o ax + s ax := by
  intro fuel
  induction fuel with
  | zero => intro tree o s base _ u hu; simp [cellEmit] at hu
  | succ f ih =>
    intro tree o s base hs u hu
    unfold cellEmit at hu
    cases hslab : slab dim aPt bPt o s with
    | none => rw [hslab] at hu; simp at hu
    | some lohi =>
      obtain ⟨lo, hi⟩ := lohi
      simp only [hslab] at hu
      by_cases hacc : hi < lo - 0
      · rw [if_pos hacc] at hu
        simp at hu
      · rw [if_neg hacc] at hu
        cases tree with
        | leaf =>
          by_cases hm : mask base = true
          · rw [if_pos hm] at hu
            simp at hu
          · rw [if_neg hm] at hu
            rw [List.mem_singleton] at hu
            subst hu
            unfold slab at hslab
            intro ax hax
            exact slabGo_mem _ (fun ax2 hax2 => hs ax2 (mem_activeAxes.mp hax2))
              _ _ _ _ hslab lo le_rfl (by linarith) ax (mem_activeAxes.mpr hax)
        | node cs =>
          rw [mem_join_map] at hu
          obtain ⟨⟨c, t⟩, _, hu⟩ := hu
          intro ax hax
          have hs' : ∀ ax2 : Fin 3, ax2.val < dim → 0 ≤ childBoxS dim b s ax2 := by
            intro ax2 hax2
            unfold childBoxS
            rw [if_pos hax2]
            have : (0:ℚ) < (b:ℚ) := by positivity
            exact div_nonneg (hs ax2 hax2) (le_of_lt this)
          have hsub := childBox_sub (o := o) hb hs c ax hax
          have := ih t _ _ _ hs' u hu ax hax
          exact ⟨le_trans hsub.1 this.1, le_trans this.2 hsub.2⟩

/-- On a fully unmasked grid the walk of a cell whose closed box contains
the segment origin emits at least one hit. -/
theorem cellEmit_nonempty {mask : Nat → Bool} {dim b : Nat} {aPt bPt : V3} {tol : ℚ}
    (hb : 2 ≤ b) (hdim : dim ≤ 3) (htol : 0 ≤ tol) (hmask : ∀ i, mask i = false) :
    ∀ fuel : Nat, ∀ tree : HTree, ∀ o s : V3, ∀ base : Nat,
      tree.wfB b dim = true → tree.depth < fuel →
      inBoxC dim o s aPt → posSize dim s →
      ∃ u, u ∈ cellEmit mask dim b aPt bPt tol fuel tree o s base := by
  intro fuel
  induction fuel with
  | zero => intro tree o s base _ hd _ _; omega
  | succ f ih =>
    intro tree o s base hwf hdep hin hpos
    have hslab : ∃ lo hi, slab dim aPt bPt o s = some (lo, hi) ∧ lo ≤ 0 ∧ 0 ≤ hi := by
      unfold slab
      exact slabGo_inside _ (fun ax hax => hin ax (mem_activeAxes.mp hax)) 0 1 le_rfl
        (by norm_num)
    obtain ⟨lo, hi, hslab, hlo, hhi⟩ := hslab
    have hacc : ¬(hi < lo - tol) := by linarith
    cases tree with
    | leaf =>
      refine ⟨(lo, base), ?_⟩
      unfold cellEmit
      simp only [hslab]
      rw [if_neg hacc, if_neg (by rw [hmask base]; simp)]
      exact List.mem_singleton.mpr rfl
    | node cs =>
      simp only [HTree.wfB, Bool.and_eq_true, beq_iff_eq] at hwf
      obtain ⟨hlen, hwfl⟩ := hwf
      obtain ⟨hclt, hcin⟩ := childStep_C hb hdim hin hpos
      have hcs : linearize b (childDigits dim b o s aPt) < cs.length := by omega
      have hmem : cs[linearize b (childDigits dim b o s aPt)] ∈ cs := List.getElem_mem hcs
      have hdep' : cs[linearize b (childDigits dim b o s aPt)].depth < f := by
        have h1 : cs[linearize b (childDigits dim b o s aPt)].depth ≤ depthList cs :=
          depthList_ge _ hmem
        have h2 : (HTree.node cs).depth = 1 + depthList cs := rfl
        omega
      obtain ⟨u, hu⟩ := ih cs[linearize b (childDigits dim b o s aPt)]
        (childBoxO dim b o s (linearize b (childDigits dim b o s aPt)))
        (childBoxS dim b s)
        (childBase base cs (linearize b (childDigits dim b o s aPt)))
        (wfListB_forall hwfl _ hmem) hdep' hcin (posSize_child hb hpos)
      refine ⟨u, ?_⟩
      unfold cellEmit
      simp only [hslab]
      rw [if_neg hacc]
      rw [mem_join_map]
      exact ⟨(linearize b (childDigits dim b o s aPt),
        cs[linearize b (childDigits dim b o s aPt)]), enum_mem_of_lt hcs, hu⟩

theorem mem_intersectAllRaw {g : HTG} {aPt bPt : V3} {tol : ℚ} {u : ℚ × Nat} :
    u ∈ intersectAllRaw g aPt bPt tol ↔
      ∃ r t, r < numRoots g ∧ g.trees[r]? = some t ∧
        u ∈ cellEmit g.mask g.dim g.branch aPt bPt tol (t.depth + 1) t
          (rootBoxO g (rootDigits g r)) (rootBoxS g (rootDigits g r)) (treeBase g r) := by
  unfold intersectAllRaw
  rw [mem_join_map]
  constructor
  · rintro ⟨r, hr, hu⟩
    rw [List.mem_range] at hr
    cases hget : g.trees[r]? with
    | none => simp only [hget] at hu; simp at hu
    | some t =>
      simp only [hget] at hu
      exact ⟨r, t, hr, hget, hu⟩
  · rintro ⟨r, t, hr, hget, hu⟩
    refine ⟨r, List.mem_range.mpr hr, ?_⟩
    simp only [hget]
    exact hu

theorem mem_intersectAll {g : HTG} {aPt bPt : V3} {tol : ℚ} {u : ℚ × Nat} :
    u ∈ intersectAll g aPt bPt tol ↔ u ∈ intersectAllRaw g aPt bPt tol :=
  (List.perm_insertionSort tOrder _).mem_iff

/-- C6: for every segment and tolerance, the entry parameters emitted by
intersect_all form a non-decreasing sequence. -/
theorem C6_intersectAll_t_monotone (g : HTG) (aPt bPt : V3) (tol : ℚ) :
    List.Pairwise (fun u v : ℚ × Nat => u.1 ≤ v.1) (intersectAll g aPt bPt tol) :=
  List.sorted_insertionSort tOrder _

/-- C8: when the segment origin's containing leaf (the cell an unmasked
point search would return) is masked, the first hit of the segment is an
unmasked cell whose id differs from that leaf's id: the walk skips the
masked leaf and returns the first unmasked leaf downstream. -/
theorem C8_masked_origin_first_hit (g : HTG) (aPt bPt : V3) (tol : ℚ)
    (bL : Nat) (oL sL : V3) (u : ℚ × Nat)
    (hleaf : searchResult (g.setMask (fun _ => false)) aPt = .found bL oL sL)
    (hmasked : g.mask bL = true)
    (hfirst : intersectFirst g aPt bPt tol = some u) :
    g.mask u.2 = false ∧ u.2 ≠ bL := by
  have hmem : u ∈ intersectAll g aPt bPt tol := by
    unfold intersectFirst at hfirst
    exact List.mem_of_mem_head? (by rw [hfirst]; exact rfl)
  rw [mem_intersectAll, mem_intersectAllRaw] at hmem
  obtain ⟨r, t, _, _, hu⟩ := hmem
  have hun := cellEmit_unmasked _ t _ _ _ u hu
  refine ⟨hun, ?_⟩
  intro heq
  rw [heq, hmasked] at hun
  cases hun

theorem dist3_nonneg (x y : V3) : 0 ≤ dist3 x y := Real.sqrt_nonneg _

theorem dist3_segAt_left (aPt bPt : V3) (t : ℚ) (ht : 0 ≤ t) :
    dist3 (segAt aPt bPt t) aPt = (t : ℝ) * dist3 bPt aPt := by
  unfold dist3 segAt
  have hsum : ∑ i : Fin 3, (((aPt i + t * (bPt i - aPt i) : ℚ) : ℝ) - ((aPt i : ℚ) : ℝ)) ^ 2 =
      (t : ℝ) ^ 2 * ∑ i : Fin 3, (((bPt i : ℚ) : ℝ) - ((aPt i : ℚ) : ℝ)) ^ 2 := by
    rw [Finset.mul_sum]
    apply Finset.sum_congr rfl
    intro i _
    push_cast
    ring
  rw [hsum, Real.sqrt_mul (by positivity), Real.sqrt_sq_eq_abs,
    abs_of_nonneg (by exact_mod_cast ht)]

theorem dist3_segAt_right (aPt bPt : V3) (t : ℚ) (ht : t ≤ 1) :
    dist3 (segAt aPt bPt t) bPt = (1 - (t : ℝ)) * dist3 bPt aPt := by
  unfold dist3 segAt
  have hsum : ∑ i : Fin 3, (((aPt i + t * (bPt i - aPt i) : ℚ) : ℝ) - ((bPt i : ℚ) : ℝ)) ^ 2 =
      (1 - (t : ℝ)) ^ 2 * ∑ i : Fin 3, (((bPt i : ℚ) : ℝ) - ((aPt i : ℚ) : ℝ)) ^ 2 := by
    rw [Finset.mul_sum]
    apply Finset.sum_congr rfl
    intro i _
    push_cast
    ring
  rw [hsum, Real.sqrt_mul (by positivity), Real.sqrt_sq_eq_abs,
    abs_of_nonneg (by
      have : (t : ℝ) ≤ 1 := by exact_mod_cast ht
      linarith)]

theorem dist3_symm (x y : V3) : dist3 x y = dist3 y x := by
  unfold dist3
  congr 1
  apply Finset.sum_congr rfl
  intro i _
  ring

/-- C9: every intersection point emitted by intersect_all (zero
tolerance, the tolerance the tests exercise) lies on the segment: the
sum of its distances to the two endpoints equals the segment length, so
the defect is within 8 * eps * length for every nonnegative eps. -/
theorem C9_hits_on_segment (g : HTG) (aPt bPt : V3) (eps : ℝ) (heps : 0 ≤ eps)
    (u : ℚ × Nat) (hu : u ∈ intersectAll g aPt bPt 0) :
    |dist3 (segAt aPt bPt u.1) aPt + dist3 (segAt aPt bPt u.1) bPt - dist3 aPt bPt| ≤
      8 * eps * dist3 aPt bPt := by
  rw [mem_intersectAll, mem_intersectAllRaw] at hu
  obtain ⟨r, t, _, _, hmem⟩ := hu
  obtain ⟨ht0, ht1⟩ := cellEmit_t_range le_rfl _ t _ _ _ u hmem
  have ht1' : u.1 ≤ 1 := by linarith
  have hkey : dist3 (segAt aPt bPt u.1) aPt + dist3 (segAt aPt bPt u.1) bPt -
      dist3 aPt bPt = 0 := by
    rw [dist3_segAt_left _ _ _ ht0, dist3_segAt_right _ _ _ ht1', dist3_symm aPt bPt]
    ring
  rw [hkey, abs_zero]
  have := dist3_nonneg aPt bPt
  positivity

theorem sorted_getD01 {xs : List ℚ} (hs : List.Chain' (· < ·) xs) (h2 : 2 ≤ xs.length) :
    xs.getD 0 0 < xs.getD 1 0 := by
  cases xs with
  | nil => simp at h2
  | cons x ys =>
    cases ys with
    | nil => simp at h2
    | cons y rest =>
      simpa using (List.chain'_cons.mp hs).1

/-- C10: intersect_all emits its points and its cell ids in lockstep
(equal counts after any call), and for the full-diagonal segment of a
non-empty unmasked grid both counts are strictly positive. -/
theorem C10_lockstep_and_nonempty (g : HTG) (tol : ℚ) (hwf : g.wfB = true)
    (hmask : ∀ i, g.mask i = false) (htol : 0 ≤ tol) :
    (∀ a b : V3, ∀ tl : ℚ,
      (intersectPts g a b tl).length = (intersectIds g a b tl).length) ∧
    0 < (intersectIds g (lowerCorner g) (upperCorner g) tol).length := by
  obtain ⟨hd1, hd3, hb2, hcoords, hlen, htrees⟩ := HTG.wf_unpack hwf
  constructor
  · intro a b tl
    unfold intersectPts intersectIds
    simp
  · have hn : ∀ a : Fin 3, 0 < nAxis g a := by
      intro a
      unfold nAxis
      by_cases ha : a.val < g.dim
      · rw [if_pos ha]
        have := (hcoords a ha).1
        omega
      · rw [if_neg ha]
        omega
    have hR : 0 < numRoots g := by
      unfold numRoots
      exact Nat.mul_pos (hn 0) (Nat.mul_pos (hn 1) (hn 2))
    have h0len : 0 < g.trees.length := by omega
    have hget : g.trees[0]? = some g.trees[0] := List.getElem?_eq_getElem h0len
    have hdig : ∀ a : Fin 3, rootDigits g 0 a = 0 := by
      intro a
      unfold rootDigits
      fin_cases a <;> simp
    have hin : inBoxC g.dim (rootBoxO g (rootDigits g 0)) (rootBoxS g (rootDigits g 0))
        (lowerCorner g) := by
      intro a ha
      unfold rootBoxO rootBoxS lowerCorner firstC
      rw [if_pos ha, if_pos ha, hdig a]
      have := sorted_getD01 (hcoords a ha).2 (hcoords a ha).1
      constructor
      · exact le_rfl
      · simp only [Nat.zero_add]
        linarith
    have hpos : posSize g.dim (rootBoxS g (rootDigits g 0)) := by
      intro a ha
      unfold rootBoxS
      rw [if_pos ha, hdig a]
      have := sorted_getD01 (hcoords a ha).2 (hcoords a ha).1
      simp only [Nat.zero_add]
      linarith
    obtain ⟨u, hu⟩ := cellEmit_nonempty hb2 hd3 htol hmask (g.trees[0].depth + 1)
      g.trees[0] (rootBoxO g (rootDigits g 0)) (rootBoxS g (rootDigits g 0))
      (treeBase g 0) (htrees _ (List.getElem_mem h0len)) (by omega) hin hpos
    have hmem : u ∈ intersectAllRaw g (lowerCorner g) (upperCorner g) tol :=
      mem_intersectAllRaw.mpr ⟨0, g.trees[0], hR, hget, hu⟩
    rw [← mem_intersectAll] at hmem
    unfold intersectIds
    rw [List.length_map]
    exact List.length_pos.mpr (List.ne_nil_of_mem hmem)

/-- Every cell on a geometric descent path has an id at least the
starting cell's id (children are numbered after their parent). -/
theorem geomPath_base_le {dim b : Nat} {p : V3} :
    ∀ fuel : Nat, ∀ tree : HTree, ∀ o s : V3, ∀ base : Nat,
      ∀ u ∈ geomPath dim b p fuel tree o s base, base ≤ u.1 := by
  intro fuel
  induction fuel with
  | zero => intro tree o s base u hu; simp [geomPath] at hu
  | succ f ih =>
    intro tree o s base u hu
    cases tree with
    | leaf =>
      unfold geomPath at hu
      rw [List.mem_singleton] at hu
      subst hu
      exact le_rfl
    | node cs =>
      unfold geomPath at hu
      cases hget : cs[linearize b (childDigits dim b o s p)]? with
      | none =>
        simp only [hget] at hu
        rw [List.mem_singleton] at hu
        subst hu
        exact le_rfl
      | some t =>
        simp only [hget] at hu
        rcases List.mem_cons.mp hu with rfl | hmem
        · exact le_rfl
        · have := ih t _ _ _ u hmem
          unfold childBase at this
          omega

/-- When a mask marks exactly the children of the internal cell `cB`
found on the geometric path, the descent stops at `cB` and returns its
id: every cell above `cB` on the path keeps an unmasked child (its own
path child), and at `cB` the all-children-masked fallback fires. -/
theorem descend_stops_at_parent {dim b : Nat} {p : V3} {cB lB : Nat}
    {cs : List HTree} {tL : HTree} {mask : Nat → Bool}
    (hmask : ∀ i, mask i = true ↔ i ∈ childrenBases cB cs) :
    ∀ fuel : Nat, ∀ tree : HTree, ∀ o s : V3, ∀ base : Nat,
      ∀ rest : List (Nat × HTree),
      geomPath dim b p fuel tree o s base = rest ++ [(cB, HTree.node cs), (lB, tL)] →
      ∃ oC sC, descend mask dim b p fuel tree o s base = .found cB oC sC := by
  intro fuel
  induction fuel with
  | zero =>
    intro tree o s base rest h
    have hlen := congrArg List.length h
    simp [geomPath] at hlen
  | succ f ih =>
    intro tree o s base rest h
    cases tree with
    | leaf =>
      unfold geomPath at h
      have hlen := congrArg List.length h
      simp at hlen
    | node cs0 =>
      unfold geomPath at h
      cases hget : cs0[linearize b (childDigits dim b o s p)]? with
      | none =>
        simp only [hget] at h
        have hlen := congrArg List.length h
        simp at hlen
      | some t =>
        simp only [hget] at h
        cases rest with
        | nil =>
          rw [List.nil_append] at h
          injection h with h1 h2
          have hbase : base = cB := congrArg Prod.fst h1
          have hcs0 : HTree.node cs0 = HTree.node cs := congrArg Prod.snd h1
          injection hcs0 with hcs0
          refine ⟨o, s, ?_⟩
          unfold descend
          rw [if_pos ?hall]
          · rw [hbase]
          case hall =>
            rw [List.all_eq_true]
            intro x hx
            exact (hmask x).mpr (by rw [← hbase, ← hcs0]; exact hx)
        | cons r0 rest' =>
          rw [List.cons_append] at h
          injection h with h1 h2
          have hAmem : (cB, HTree.node cs) ∈ geomPath dim b p f t
              (childBoxO dim b o s (linearize b (childDigits dim b o s p)))
              (childBoxS dim b s)
              (childBase base cs0 (linearize b (childDigits dim b o s p))) := by
            rw [h2]
            simp
          have hle : childBase base cs0 (linearize b (childDigits dim b o s p)) ≤ cB :=
            geomPath_base_le f t _ _ _ _ hAmem
          have hc : linearize b (childDigits dim b o s p) < cs0.length :=
            (List.getElem?_eq_some.mp hget).1
          have hcmem : childBase base cs0 (linearize b (childDigits dim b o s p)) ∈
              childrenBases base cs0 := childBase_mem hc
          have hmaskc : mask (childBase base cs0 (linearize b (childDigits dim b o s p))) =
              false := by
            by_contra hcon
            rw [Bool.not_eq_false] at hcon
            have := childrenBases_gt _ ((hmask _).mp hcon)
            omega
          have hnall : ¬((childrenBases base cs0).all mask = true) := by
            rw [List.all_eq_true]
            intro hall
            have := hall _ hcmem
            rw [hmaskc] at this
            cases this
          obtain ⟨oC, sC, hd⟩ := ih t _ _ _ rest' h2
          refine ⟨oC, sC, ?_⟩
          unfold descend
          rw [if_neg hnall]
          simp only [hget]
          exact hd

/-- C2: if every child of an internal cell C on a point's descent path
is masked (C being the parent of the leaf an unmasked search returns),
then search(p) returns the global id of C rather than the masked-hit
sentinel. -/
theorem C2_all_children_masked_returns_parent (g : HTG) (p : V3)
    (rest : List (Nat × HTree)) (cB lB : Nat) (cs : List HTree)
    (hpath : pathOfRoot g p = rest ++ [(cB, HTree.node cs), (lB, HTree.leaf)]) :
    search (g.setMask (fun i => decide (i ∈ childrenBases cB cs))) p = (cB : Int) := by
  unfold pathOfRoot at hpath
  by_cases hdom : inDomainB g p = true
  · rw [if_pos hdom] at hpath
    cases hget : g.trees[rootLinear g (rootIndexOf g p)]? with
    | none =>
      simp only [hget] at hpath
      have hlen := congrArg List.length hpath
      simp at hlen
    | some t =>
      simp only [hget] at hpath
      have hmiff : ∀ i, (fun i => decide (i ∈ childrenBases cB cs)) i = true ↔
          i ∈ childrenBases cB cs := by
        intro i
        simp
      obtain ⟨oC, sC, hd⟩ := descend_stops_at_parent hmiff _ t _ _ _ rest hpath
      have hsr : searchResult (g.setMask (fun i => decide (i ∈ childrenBases cB cs))) p =
          .found cB oC sC := by
        unfold searchResult
        rw [if_pos (show inDomainB (g.setMask (fun i => decide (i ∈ childrenBases cB cs)))
          p = true from hdom)]
        have hget' : (g.setMask (fun i => decide (i ∈ childrenBases cB cs))).trees[
            rootLinear (g.setMask (fun i => decide (i ∈ childrenBases cB cs)))
              (rootIndexOf (g.setMask (fun i => decide (i ∈ childrenBases cB cs))) p)]? =
            some t := hget
        simp only [hget']
        exact hd
      unfold search
      rw [hsr]
      rfl
  · rw [if_neg hdom] at hpath
    have hlen := congrArg List.length hpath
    simp at hlen

/-- The containing leaf's box is contained in the box the descent
started from. -/
theorem containingLeaf_box_sub {dim b : Nat} {p : V3} (hb : 2 ≤ b) :
    ∀ fuel : Nat, ∀ tree : HTree, ∀ o s : V3, ∀ base bL : Nat, ∀ oL sL : V3,
      (∀ a : Fin 3, a.val < dim → 0 ≤ s a) →
      containingLeaf dim b p fuel tree o s base = some (bL, oL, sL) →
      ∀ a : Fin 3, a.val < dim → o a ≤ oL a ∧ oL a + sL a ≤ o a + s a := by
  intro fuel
  induction fuel with
  | zero => intro tree o s base bL oL sL _ h; simp [containingLeaf] at h
  | succ f ih =>
    intro tree o s base bL oL sL hs h a ha
    cases tree with
    | leaf =>
      unfold containingLeaf at h
      injection h with h
      have ho : o = oL := congrArg (fun x => x.2.1) h
      have hss : s = sL := congrArg (fun x => x.2.2) h
      rw [← ho, ← hss]
      exact ⟨le_rfl, le_rfl⟩
    | node cs =>
      unfold containingLeaf at h
      cases hget : cs[linearize b (childDigits dim b o s p)]? with
      | none => simp only [hget] at h; cases h
      | some t =>
        simp only [hget] at h
        have hs' : ∀ a2 : Fin 3, a2.val < dim → 0 ≤ childBoxS dim b s a2 := by
          intro a2 ha2
          unfold childBoxS
          rw [if_pos ha2]
          exact div_nonneg (hs a2 ha2) (by positivity)
        have hchild := ih t _ _ _ _ _ _ hs' h a ha
        have hsub := childBox_sub (o := o) hb hs (linearize b (childDigits dim b o s p)) a ha
        exact ⟨le_trans hsub.1 hchild.1, le_trans hchild.2 hsub.2⟩

/-- A segment starting at an in-cell point always registers the
containing leaf of its origin as a hit with entry parameter 0 (when that
leaf is unmasked). -/
theorem cellEmit_contains_zero_hit {mask : Nat → Bool} {dim b : Nat} {p bPt : V3}
    (hb : 2 ≤ b) (hdim : dim ≤ 3) :
    ∀ fuel : Nat, ∀ tree : HTree, ∀ o s : V3, ∀ base bL : Nat, ∀ oL sL : V3,
      tree.wfB b dim = true →
      inBoxHO dim o s p →
      containingLeaf dim b p fuel tree o s base = some (bL, oL, sL) →
      mask bL = false →
      (0, bL) ∈ cellEmit mask dim b p bPt 0 fuel tree o s base := by
  intro fuel
  induction fuel with
  | zero => intro tree o s base bL oL sL _ _ h _; simp [containingLeaf] at h
  | succ f ih =>
    intro tree o s base bL oL sL hwf hin hcl hm
    have hinC : ∀ ax ∈ activeAxes dim, o ax ≤ p ax ∧ p ax ≤ o ax + s ax := by
      intro ax hax
      have := hin ax (mem_activeAxes.mp hax)
      exact ⟨this.1, le_of_lt this.2⟩
    obtain ⟨lo, hi, hslab, hlo, hhi⟩ := @slabGo_inside p bPt o s _ hinC 0 1 le_rfl
      (by norm_num)
    have hlo0 : lo = 0 := le_antisymm hlo (slabGo_bounds _ _ _ _ _ hslab).1
    have hslab2 : slab dim p bPt o s = some (lo, hi) := by
      unfold slab
      exact hslab
    have hacc : ¬(hi < lo - 0) := by rw [hlo0]; linarith
    cases tree with
    | leaf =>
      unfold containingLeaf at hcl
      injection hcl with hcl
      have hbL : base = bL := congrArg Prod.fst hcl
      unfold cellEmit
      simp only [hslab2]
      rw [if_neg hacc, if_neg (by rw [hbL, hm]; simp)]
      rw [List.mem_singleton, hlo0, hbL]
    | node cs =>
      simp only [HTree.wfB, Bool.and_eq_true, beq_iff_eq] at hwf
      obtain ⟨hlen, hwfl⟩ := hwf
      obtain ⟨hclt, hcin⟩ := childStep_HO hb hdim hin
      have hcs : linearize b (childDigits dim b o s p) < cs.length := by omega
      have hget : cs[linearize b (childDigits dim b o s p)]? =
          some cs[linearize b (childDigits dim b o s p)] := List.getElem?_eq_getElem hcs
      unfold containingLeaf at hcl
      simp only [hget] at hcl
      have hmem : (0, bL) ∈ cellEmit mask dim b p bPt 0 f
          cs[linearize b (childDigits dim b o s p)]
          (childBoxO dim b o s (linearize b (childDigits dim b o s p)))
          (childBoxS dim b s)
          (childBase base cs (linearize b (childDigits dim b o s p))) :=
        ih _ _ _ _ _ _ _ (wfListB_forall hwfl _ (List.getElem_mem hcs)) hcin hcl hm
      unfold cellEmit
      simp only [hslab2]
      rw [if_neg hacc, mem_join_map]
      exact ⟨(linearize b (childDigits dim b o s p),
        cs[linearize b (childDigits dim b o s p)]), enum_mem_of_lt hcs, hmem⟩

theorem childSlab_disjoint {b : Nat} {o s pa : ℚ} (hs : 0 ≤ s) {d1 d2 : Nat}
    (hne : d1 ≠ d2)
    (hc : o + (d1 : ℚ) * (s / (b : ℚ)) ≤ pa ∧
      pa ≤ o + (d1 : ℚ) * (s / (b : ℚ)) + s / (b : ℚ))
    (ho : o + (d2 : ℚ) * (s / (b : ℚ)) < pa ∧
      pa < o + (d2 : ℚ) * (s / (b : ℚ)) + s / (b : ℚ)) : False := by
  have hsb : 0 ≤ s / (b : ℚ) := div_nonneg hs (by positivity)
  rcases lt_or_gt_of_ne hne with h | h
  · have hcast : (d1 : ℚ) + 1 ≤ (d2 : ℚ) := by exact_mod_cast h
    nlinarith [hc.2, ho.1]
  · have hcast : (d2 : ℚ) + 1 ≤ (d1 : ℚ) := by exact_mod_cast h
    nlinarith [hc.1, ho.2]

/-- For a segment whose origin is strictly inside its containing leaf,
that leaf is the only cell of the tree that can be hit with entry
parameter 0. -/
theorem cellEmit_zero_hit_unique {mask : Nat → Bool} {dim b : Nat} {p bPt : V3}
    (hb : 2 ≤ b) (hdim : dim ≤ 3) :
    ∀ fuel : Nat, ∀ tree : HTree, ∀ o s : V3, ∀ base bL : Nat, ∀ oL sL : V3,
      tree.wfB b dim = true →
      inBoxHO dim o s p →
      containingLeaf dim b p fuel tree o s base = some (bL, oL, sL) →
      inBoxO dim oL sL p →
      ∀ u ∈ cellEmit mask dim b p bPt 0 fuel tree o s base, u.1 = 0 → u.2 = bL := by
  intro fuel
  induction fuel with
  | zero => intro tree o s base bL oL sL _ _ _ _ u hu; simp [cellEmit] at hu
  | succ f ih =>
    intro tree o s base bL oL sL hwf hin hcl hop u hu hu0
    unfold cellEmit at hu
    cases hslab : slab dim p bPt o s with
    | none => simp only [hslab] at hu; simp at hu
    | some lohi =>
      obtain ⟨lo, hi⟩ := lohi
      simp only [hslab] at hu
      by_cases hacc : hi < lo - 0
      · rw [if_pos hacc] at hu
        simp at hu
      · rw [if_neg hacc] at hu
        cases tree with
        | leaf =>
          by_cases hm : mask base = true
          · rw [if_pos hm] at hu
            simp at hu
          · rw [if_neg hm] at hu
            rw [List.mem_singleton] at hu
            subst hu
            unfold containingLeaf at hcl
            injection hcl with hcl
            exact congrArg Prod.fst hcl
        | node cs =>
          simp only [HTree.wfB, Bool.and_eq_true, beq_iff_eq] at hwf
          obtain ⟨hlen, hwfl⟩ := hwf
          rw [mem_join_map] at hu
          obtain ⟨⟨c', t'⟩, hct, hu⟩ := hu
          obtain ⟨hc'len, ht'⟩ := List.mem_enum hct
          obtain ⟨hcPlt, hcPin⟩ := childStep_HO (b := b) hb hdim hin
          have hcPlen : linearize b (childDigits dim b o s p) < cs.length := by omega
          have hgetP : cs[linearize b (childDigits dim b o s p)]? =
              some cs[linearize b (childDigits dim b o s p)] :=
            List.getElem?_eq_getElem hcPlen
          unfold containingLeaf at hcl
          simp only [hgetP] at hcl
          by_cases hcc : c' = linearize b (childDigits dim b o s p)
          · refine ih cs[linearize b (childDigits dim b o s p)] _ _ _ _ _ _
              (wfListB_forall hwfl _ (List.getElem_mem hcPlen)) hcPin hcl hop u ?_ hu0
            rw [ht'] at hu
            simp only [hcc] at hu
            exact hu
          · exfalso
            have hs0 : ∀ ax : Fin 3, ax.val < dim → 0 ≤ s ax := by
              intro ax hax
              have := hin ax hax
              linarith [this.1, this.2]
            have hs0' : ∀ ax : Fin 3, ax.val < dim → 0 ≤ childBoxS dim b s ax := by
              intro ax hax
              unfold childBoxS
              rw [if_pos hax]
              exact div_nonneg (hs0 ax hax) (by positivity)
            have hsubL := containingLeaf_box_sub hb f
              cs[linearize b (childDigits dim b o s p)] _ _ _ _ _ _ hs0' hcl
            have hc'b : c' < b ^ dim := by omega
            have hdig : ∃ ax : Fin 3, ax.val < dim ∧
                digitOf b c' ax ≠ digitOf b (linearize b (childDigits dim b o s p)) ax := by
              by_contra hcon
              push_neg at hcon
              exact hcc (digit_inj hb hdim hc'b (by omega) (fun ax hax => hcon ax hax))
            obtain ⟨ax, hax, hne⟩ := hdig
            have hclosed := cellEmit_mem_box hb f t' _ _ _ hs0' u hu ax hax
            rw [hu0] at hclosed
            have hpe : p ax + 0 * (bPt ax - p ax) = p ax := by ring
            rw [hpe] at hclosed
            have hopP : childBoxO dim b o s (linearize b (childDigits dim b o s p)) ax < p ax ∧
                p ax < childBoxO dim b o s (linearize b (childDigits dim b o s p)) ax +
                  childBoxS dim b s ax := by
              have h1 := hsubL ax hax
              have h2 := hop ax hax
              exact ⟨lt_of_le_of_lt h1.1 h2.1, lt_of_lt_of_le h2.2 h1.2⟩
            unfold childBoxO childBoxS at hclosed hopP
            simp only [if_pos hax] at hclosed hopP
            exact childSlab_disjoint (hs0 ax hax) hne hclosed hopP

theorem rootDigits_lt {g : HTG} {r : Nat} (hr : r < numRoots g)
    (hn : ∀ a : Fin 3, 0 < nAxis g a) : ∀ a : Fin 3, rootDigits g r a < nAxis g a := by
  have e0 : rootDigits g r 0 = r % nAxis g 0 := rfl
  have e1 : rootDigits g r 1 = r / nAxis g 0 % nAxis g 1 := rfl
  have e2 : rootDigits g r 2 = r / (nAxis g 0 * nAxis g 1) := rfl
  intro a
  fin_cases a
  · show rootDigits g r 0 < nAxis g 0
    rw [e0]
    exact Nat.mod_lt _ (hn 0)
  · show rootDigits g r 1 < nAxis g 1
    rw [e1]
    exact Nat.mod_lt _ (hn 1)
  · show rootDigits g r 2 < nAxis g 2
    rw [e2]
    apply Nat.div_lt_of_lt_mul
    have hassoc : nAxis g 0 * nAxis g 1 * nAxis g 2 =
        nAxis g 0 * (nAxis g 1 * nAxis g 2) := by ring
    unfold numRoots at hr
    omega

theorem rootLinear_rootDigits {g : HTG} {r : Nat} (hr : r < numRoots g)
    (hn : ∀ a : Fin 3, 0 < nAxis g a) : rootLinear g (rootDigits g r) = r := by
  have e0 : rootDigits g r 0 = r % nAxis g 0 := rfl
  have e1 : rootDigits g r 1 = r / nAxis g 0 % nAxis g 1 := rfl
  have e2 : rootDigits g r 2 = r / (nAxis g 0 * nAxis g 1) := rfl
  unfold rootLinear
  rw [e0, e1, e2]
  have hdd : r / (nAxis g 0 * nAxis g 1) = r / nAxis g 0 / nAxis g 1 :=
    (Nat.div_div_eq_div_mul _ _ _).symm
  rw [hdd, Nat.mod_add_div (r / nAxis g 0) (nAxis g 1), Nat.mod_add_div r (nAxis g 0)]

theorem sorted_getD_le {xs : List ℚ} (hs : List.Chain' (· < ·) xs) {i j : Nat}
    (hij : i ≤ j) (hj : j < xs.length) : xs.getD i 0 ≤ xs.getD j 0 := by
  rcases eq_or_lt_of_le hij with rfl | hlt
  · exact le_rfl
  · have hp : List.Pairwise (· < ·) xs := List.chain'_iff_pairwise.mp hs
    have hi : i < xs.length := lt_trans hlt hj
    have := List.pairwise_iff_getElem.mp hp i j hi hj hlt
    rw [List.getD_eq_getElem?_getD, List.getD_eq_getElem?_getD,
      List.getElem?_eq_getElem hi, List.getElem?_eq_getElem hj]
    exact le_of_lt this

theorem raw_t_nonneg {g : HTG} {aPt bPt : V3} {tol : ℚ} (htol : 0 ≤ tol) :
    ∀ u ∈ intersectAllRaw g aPt bPt tol, 0 ≤ u.1 := by
  intro u hu
  rw [mem_intersectAllRaw] at hu
  obtain ⟨r, t, _, _, hm⟩ := hu
  exact (cellEmit_t_range htol _ t _ _ _ u hm).1

/-- C7: for an in-domain point p strictly interior to its containing
leaf, with that leaf unmasked and the descent reaching it,
intersect_first of any segment with origin p returns the same cell as
search(p): the containing leaf, at entry parameter 0. -/
theorem C7_intersectFirst_agrees_with_search (g : HTG) (p bPt : V3) (bL : Nat)
    (oL sL : V3)
    (hwf : g.wfB = true) (hdom : inDomainB g p = true)
    (hleaf : leafOfRoot g p = some (bL, oL, sL))
    (hstrict : inBoxO g.dim oL sL p)
    (hm : g.mask bL = false)
    (hnofb : noFallbackAt g p = true) :
    search g p = (bL : Int) ∧ intersectFirst g p bPt 0 = some (0, bL) := by
  obtain ⟨hd1, hd3, hb2, hcoords, hlen, htrees⟩ := HTG.wf_unpack hwf
  obtain ⟨hidx, hrlen, hbox⟩ := root_setup hwf hdom
  refine ⟨(search_noFallback_spec g p bL oL sL hnofb hleaf).2 hm, ?_⟩
  set rP := rootLinear g (rootIndexOf g p) with hrP
  have hget : g.trees[rP]? = some g.trees[rP] := List.getElem?_eq_getElem hrlen
  have hwfP : g.trees[rP].wfB g.branch g.dim = true := htrees _ (List.getElem_mem hrlen)
  have hcl : containingLeaf g.dim g.branch p (g.trees[rP].depth + 1) g.trees[rP]
      (rootBoxO g (rootIndexOf g p)) (rootBoxS g (rootIndexOf g p)) (treeBase g rP) =
      some (bL, oL, sL) := by
    unfold leafOfRoot at hleaf
    rw [if_pos hdom] at hleaf
    simp only [← hrP, hget] at hleaf
    exact hleaf
  have hdigs : rootDigits g rP = rootIndexOf g p := funext (rootDigits_rootLinear hidx)
  have hz : (0, bL) ∈ intersectAllRaw g p bPt 0 := by
    rw [mem_intersectAllRaw]
    refine ⟨rP, g.trees[rP], by omega, hget, ?_⟩
    rw [hdigs]
    exact cellEmit_contains_zero_hit hb2 hd3 _ _ _ _ _ _ _ _ hwfP hbox hcl hm
  have huniq : ∀ u ∈ intersectAllRaw g p bPt 0, u.1 = 0 → u = (0, bL) := by
    intro u hu hu0
    rw [mem_intersectAllRaw] at hu
    obtain ⟨r', t', hr', hget', hmem⟩ := hu
    by_cases hrr : r' = rP
    · subst hrr
      rw [hget] at hget'
      injection hget' with hteq
      subst hteq
      rw [hdigs] at hmem
      have hu2 := cellEmit_zero_hit_unique hb2 hd3 _ _ _ _ _ _ _ _
        hwfP hbox hcl hstrict u hmem hu0
      cases u
      simp at hu0 hu2
      simp [hu0, hu2]
    · exfalso
      have hn : ∀ a : Fin 3, 0 < nAxis g a := fun a =>
        lt_of_le_of_lt (Nat.zero_le _) (hidx a)
      have hdl := rootDigits_lt (show r' < numRoots g from hr') hn
      have hs0 : ∀ ax : Fin 3, ax.val < g.dim → 0 ≤ rootBoxS g (rootDigits g r') ax := by
        intro ax hax
        unfold rootBoxS
        rw [if_pos hax]
        have h1 : rootDigits g r' ax < nAxis g ax := hdl ax
        have h2 : nAxis g ax = (g.coords ax).length - 1 := by
          unfold nAxis
          rw [if_pos hax]
        have hD := sorted_getD_le (hcoords ax hax).2
          (show rootDigits g r' ax ≤ rootDigits g r' ax + 1 by omega)
          (show rootDigits g r' ax + 1 < (g.coords ax).length by
            have := (hcoords ax hax).1
            omega)
        linarith
      have hclosed := cellEmit_mem_box hb2 _ t' _ _ _ hs0 u hmem
      have hdig : ∃ ax : Fin 3, ax.val < g.dim ∧
          rootDigits g r' ax ≠ rootIndexOf g p ax := by
        by_contra hcon
        push_neg at hcon
        have hall : ∀ a : Fin 3, rootDigits g r' a = rootDigits g rP a := by
          intro a
          by_cases ha : a.val < g.dim
          · rw [hcon a ha, ← hdigs]
          · have h1 : rootDigits g r' a < 1 := by
              have := hdl a
              unfold nAxis at this
              rw [if_neg ha] at this
              exact this
            have h2 : rootDigits g rP a < 1 := by
              have := rootDigits_lt (show rP < numRoots g by omega) hn a
              unfold nAxis at this
              rw [if_neg ha] at this
              exact this
            omega
        apply hrr
        have e1 := rootLinear_rootDigits (show r' < numRoots g from hr') hn
        have e2 := rootLinear_rootDigits (show rP < numRoots g by omega) hn
        rw [← e1, ← e2, funext hall]
      obtain ⟨ax, hax, hne⟩ := hdig
      have hcl' := hclosed ax hax
      rw [hu0] at hcl'
      have hpe : p ax + 0 * (bPt ax - p ax) = p ax := by ring
      rw [hpe] at hcl'
      have hsP : ∀ a2 : Fin 3, a2.val < g.dim → 0 ≤ rootBoxS g (rootIndexOf g p) a2 := by
        intro a2 ha2
        have := hbox a2 ha2
        linarith [this.1, this.2]
      have hsub := containingLeaf_box_sub hb2 _ _ _ _ _ _ _ _ hsP hcl ax hax
      have hopP : rootBoxO g (rootIndexOf g p) ax < p ax ∧
          p ax < rootBoxO g (rootIndexOf g p) ax + rootBoxS g (rootIndexOf g p) ax :=
        ⟨lt_of_le_of_lt hsub.1 (hstrict ax hax).1,
          lt_of_lt_of_le (hstrict ax hax).2 hsub.2⟩
      have hiP : rootIndexOf g p ax < nAxis g ax := hidx ax
      have hi' : rootDigits g r' ax < nAxis g ax := hdl ax
      have hnax : nAxis g ax = (g.coords ax).length - 1 := by
        unfold nAxis
        rw [if_pos hax]
      have hlen2 := (hcoords ax hax).1
      unfold rootBoxO rootBoxS at hcl' hopP
      simp only [if_pos hax] at hcl' hopP
      rcases lt_or_gt_of_ne hne with h | h
      · have hD := sorted_getD_le (hcoords ax hax).2
          (show rootDigits g r' ax + 1 ≤ rootIndexOf g p ax by omega)
          (show rootIndexOf g p ax < (g.coords ax).length by omega)
        linarith [hcl'.2, hopP.1]
      · have hD := sorted_getD_le (hcoords ax hax).2
          (show rootIndexOf g p ax + 1 ≤ rootDigits g r' ax by omega)
          (show rootDigits g r' ax < (g.coords ax).length by omega)
        linarith [hcl'.1, hopP.2]
  have hzS : (0, bL) ∈ intersectAll g p bPt 0 := mem_intersectAll.mpr hz
  cases hS : intersectAll g p bPt 0 with
  | nil =>
    rw [hS] at hzS
    simp at hzS
  | cons h0 tailS =>
    have hsorted : List.Sorted tOrder (h0 :: tailS) := by
      rw [← hS]
      exact List.sorted_insertionSort tOrder _
    have hh0raw : h0 ∈ intersectAllRaw g p bPt 0 := by
      apply mem_intersectAll.mp
      rw [hS]
      exact List.mem_cons_self _ _
    have hh0nonneg : 0 ≤ h0.1 := raw_t_nonneg le_rfl h0 hh0raw
    have hh0le : h0.1 ≤ 0 := by
      rw [hS] at hzS
      rcases List.mem_cons.mp hzS with heq | hmem
      · rw [← heq]
      · exact List.rel_of_sorted_cons hsorted _ hmem
    have hh00 : h0.1 = 0 := le_antisymm hh0le hh0nonneg
    have hfin := huniq h0 hh0raw hh00
    unfold intersectFirst
    rw [hS, List.head?_cons, hfin]

theorem C1_search_returns_containing_cell_witness :
    gW.wfB = true ∧ inDomainB gW (pt3 (1/4) 0 0) = true ∧ gW.mask 1 = false ∧
    (0 ≤ search gW (pt3 (1/4) 0 0) ∧
      ∃ i o' s', searchResult gW (pt3 (1/4) 0 0) = .found i o' s' ∧
        search gW (pt3 (1/4) 0 0) = (i : Int) ∧ inBoxHO gW.dim o' s' (pt3 (1/4) 0 0)) := by
  have hleaf : leafOfRoot gW (pt3 (1/4) 0 0) = some (1, oLW, sLW) := by
    with_unfolding_all rfl
  exact ⟨by with_unfolding_all decide, by with_unfolding_all decide,
    by with_unfolding_all decide,
    C1_search_returns_containing_cell gW (pt3 (1/4) 0 0) 1 oLW sLW
      (by with_unfolding_all decide) (by with_unfolding_all decide) hleaf
      (by with_unfolding_all decide)⟩

theorem C2_all_children_masked_returns_parent_witness :
    pathOfRoot gW (pt3 (1/4) 0 0) =
      [] ++ [(0, HTree.node [HTree.leaf, HTree.leaf]), (1, HTree.leaf)] ∧
    search (gW.setMask (fun i => decide (i ∈ childrenBases 0 [HTree.leaf, HTree.leaf])))
      (pt3 (1/4) 0 0) = ((0 : Nat) : Int) := by
  have hpath : pathOfRoot gW (pt3 (1/4) 0 0) =
      [] ++ [(0, HTree.node [HTree.leaf, HTree.leaf]), (1, HTree.leaf)] := by
    with_unfolding_all rfl
  exact ⟨hpath, C2_all_children_masked_returns_parent gW (pt3 (1/4) 0 0) [] 0 1
    [HTree.leaf, HTree.leaf] hpath⟩

theorem C3_masked_leaf_sentinel_witness :
    noFallbackAt gWm (pt3 (1/4) 0 0) = true ∧
    ((gWm.mask 1 = true → search gWm (pt3 (1/4) 0 0) = -1) ∧
      (gWm.mask 1 = false → search gWm (pt3 (1/4) 0 0) = ((1 : Nat) : Int))) := by
  have hleaf : leafOfRoot gWm (pt3 (1/4) 0 0) = some (1, oLW, sLW) := by
    with_unfolding_all rfl
  exact ⟨by with_unfolding_all decide,
    C3_masked_leaf_sentinel gWm (pt3 (1/4) 0 0) 1 oLW sLW
      (by with_unfolding_all decide) hleaf⟩

theorem C4_out_of_domain_negative_witness :
    gW.wfB = true ∧
    ((∀ p : Fin 3 → XCoord, ¬ inDomainX gW p →
        searchX gW p = .outOfDomain ∧ toId (searchX gW p) < 0) ∧
      (∀ p : Fin 3 → XCoord, (∃ a : Fin 3, a.val < gW.dim ∧ (p a).isFin = false) →
        searchX gW p = .outOfDomain ∧ toId (searchX gW p) < 0) ∧
      (searchX gW (fun a => XCoord.fin (lastC gW a)) = .outOfDomain ∧
        toId (searchX gW (fun a => XCoord.fin (lastC gW a))) < 0)) :=
  ⟨by with_unfolding_all decide, C4_out_of_domain_negative gW (by with_unfolding_all decide)⟩

theorem C5_findCell_weights_witness :
    (0 : ℚ) < 1 ∧ searchResult gW (pt3 (1/4) 0 0) = .found 1 oLW sLW ∧
    (∃ ws, findCell gW (pt3 (1/4) 0 0) = some (1, ws) ∧ ws.length = 2 ^ gW.dim ∧
      |1 - ws.sum| < 4 * (gW.dim : ℚ) * 1) := by
  have hfound : searchResult gW (pt3 (1/4) 0 0) = .found 1 oLW sLW := by
    with_unfolding_all rfl
  exact ⟨by norm_num, hfound,
    C5_findCell_weights gW (pt3 (1/4) 0 0) 1 oLW sLW 1 (by with_unfolding_all decide)
      (by norm_num) hfound⟩

theorem C7_intersectFirst_agrees_with_search_witness :
    gW.wfB = true ∧ inDomainB gW (pt3 (1/4) 0 0) = true ∧ gW.mask 1 = false ∧
    noFallbackAt gW (pt3 (1/4) 0 0) = true ∧
    inBoxO gW.dim oLW sLW (pt3 (1/4) 0 0) ∧
    (search gW (pt3 (1/4) 0 0) = ((1 : Nat) : Int) ∧
      intersectFirst gW (pt3 (1/4) 0 0) (pt3 1 0 0) 0 = some (0, 1)) := by
  have hleaf : leafOfRoot gW (pt3 (1/4) 0 0) = some (1, oLW, sLW) := by
    with_unfolding_all rfl
  have hstrict : inBoxO gW.dim oLW sLW (pt3 (1/4) 0 0) := by
    unfold inBoxO
    with_unfolding_all decide
  exact ⟨by with_unfolding_all decide, by with_unfolding_all decide,
    by with_unfolding_all decide, by with_unfolding_all decide, hstrict,
    C7_intersectFirst_agrees_with_search gW (pt3 (1/4) 0 0) (pt3 1 0 0) 1 oLW sLW
      (by with_unfolding_all decide) (by with_unfolding_all decide) hleaf hstrict
      (by with_unfolding_all decide) (by with_unfolding_all decide)⟩

theorem C8_masked_origin_first_hit_witness :
    gWm.mask 1 = true ∧
    intersectFirst gWm (pt3 0 0 0) (pt3 1 0 0) 0 = some (1/2, 2) ∧
    (gWm.mask ((1/2 : ℚ), (2 : Nat)).2 = false ∧ ((1/2 : ℚ), (2 : Nat)).2 ≠ 1) := by
  have hleaf : searchResult (gWm.setMask (fun _ => false)) (pt3 0 0 0) =
      .found 1 oLW8 sLW8 := by
    with_unfolding_all rfl
  have hfirst : intersectFirst gWm (pt3 0 0 0) (pt3 1 0 0) 0 = some (1/2, 2) := by
    with_unfolding_all decide
  exact ⟨by with_unfolding_all decide, hfirst,
    C8_masked_origin_first_hit gWm (pt3 0 0 0) (pt3 1 0 0) 0 1 oLW8 sLW8
      ((1/2 : ℚ), (2 : Nat)) hleaf (by with_unfolding_all decide) hfirst⟩

theorem C9_hits_on_segment_witness :
    (0 : ℝ) ≤ 0 ∧ ((0 : ℚ), (1 : Nat)) ∈ intersectAll gW (pt3 0 0 0) (pt3 1 0 0) 0 ∧
    |dist3 (segAt (pt3 0 0 0) (pt3 1 0 0) ((0 : ℚ), (1 : Nat)).1) (pt3 0 0 0) +
      dist3 (segAt (pt3 0 0 0) (pt3 1 0 0) ((0 : ℚ), (1 : Nat)).1) (pt3 1 0 0) -
      dist3 (pt3 0 0 0) (pt3 1 0 0)| ≤ 8 * 0 * dist3 (pt3 0 0 0) (pt3 1 0 0) := by
  have hmem : ((0 : ℚ), (1 : Nat)) ∈ intersectAll gW (pt3 0 0 0) (pt3 1 0 0) 0 := by
    with_unfolding_all decide
  exact ⟨le_rfl, hmem, C9_hits_on_segment gW (pt3 0 0 0) (pt3 1 0 0) 0 le_rfl _ hmem⟩

theorem C10_lockstep_and_nonempty_witness :
    gW.wfB = true ∧ (0 : ℚ) ≤ 0 ∧
    ((∀ a b : V3, ∀ tl : ℚ,
        (intersectPts gW a b tl).length = (intersectIds gW a b tl).length) ∧
      0 < (intersectIds gW (lowerCorner gW) (upperCorner gW) 0).length) :=
  ⟨by with_unfolding_all decide, by norm_num,
    C10_lockstep_and_nonempty gW 0 (by with_unfolding_all decide) (fun _ => rfl)
      (by norm_num)⟩

end HTGL
